import Mathlib

/-!
Verification of the jsl query engine core (github.com/bisegni/jsl).

Shallow embedding of the Go sources:
  * `pkg/query` (second revision in the snapshot): path extraction
    (`parsePath`, `extractValue`, `extractFromMap`), the `Filter` match
    (`Match`, `matchValue`), the comparison helpers (`compareEqual`,
    `compareGreater`, ..., `toFloat64`), the legacy boolean-expression
    builder (`ParseExpression`, `splitByOperator`) and the participle
    grammar (`sql_parser.go` + the AST/lowering file).
  * `pkg/planner` (`CreatePlan`) and `pkg/plan` (`projectIterator`,
    `aggregateIterator`, the aggregator state machines, `compareGreater`,
    `toFloat64`).
  * `pkg/database` (`JSONRow.Get` of the revision that handles
    `OrderedMap` rows) and `pkg/engine` (`Executor.Execute`).

Modelling conventions:
  * JSON values are `Val`; Go `float64` numbers are modelled by `ℚ`
    (claims only rely on values where binary floating point is exact;
    NaN/Inf and float rounding are outside the model).  Because `ℚ`
    addition is exact while `float64` accumulation rounds, theorems
    must not derive order-independence of the `SUM`/`AVG` accumulators
    from the model: C4 therefore claims order-independence only for
    the integer-exact `COUNT` accumulator.
  * Go maps are modelled as association lists; map iteration order is
    only used existentially by the code under verification, except for
    `fmt`-formatting of maps, which Go prints in sorted key order and
    the model does the same.
  * `fmt.Sprintf("%v", x)` is `formatVal`; its output is exact for
    strings, booleans, nil and integral floats (the only cases the
    theorems rely on); non-integral rationals get a definite but
    abstract rendering.
  * Fallible Go functions return `Option`; recursion that Go bounds by
    data size is bounded by an explicit fuel argument large enough for
    every input (the theorems never need a "fuel suffices" side
    condition: either they evaluate on concrete data or they treat the
    function as opaque).
  * Go type identity matters once: `parser.Record` is a defined type,
    so `matchValue`'s `case map[string]interface{}` does *not* fire on
    the whole-record value returned by `Extract` for a root path; the
    model keeps that behaviour explicitly in `filterMatchRecord`.
-/

namespace JSL

/-- JSON-like dynamic value (`interface{}` holding decoded JSON). -/
inductive Val : Type where
  | null : Val
  | bool : Bool → Val
  | num : ℚ → Val
  | str : String → Val
  | arr : List Val → Val
  | obj : List (String × Val) → Val

mutual

/-- Boolean equality on `Val` (structural). -/
def Val.beq : Val → Val → Bool
  | .null, .null => true
  | .bool a, .bool b => a == b
  | .num a, .num b => a == b
  | .str a, .str b => a == b
  | .arr a, .arr b => Val.beqList a b
  | .obj a, .obj b => Val.beqObj a b
  | _, _ => false

/-- Boolean equality on value lists. -/
def Val.beqList : List Val → List Val → Bool
  | [], [] => true
  | x :: xs, y :: ys => Val.beq x y && Val.beqList xs ys
  | _, _ => false

/-- Boolean equality on key/value lists. -/
def Val.beqObj : List (String × Val) → List (String × Val) → Bool
  | [], [] => true
  | x :: xs, y :: ys => x.1 == y.1 && Val.beq x.2 y.2 && Val.beqObj xs ys
  | _, _ => false

end

mutual

theorem Val.beq_eq : ∀ {a b : Val}, Val.beq a b = true → a = b
  | .null, .null, _ => rfl
  | .bool _, .bool _, h => by
    simp only [Val.beq, beq_iff_eq] at h; exact h ▸ rfl
  | .num _, .num _, h => by
    simp only [Val.beq, beq_iff_eq] at h; exact h ▸ rfl
  | .str _, .str _, h => by
    simp only [Val.beq, beq_iff_eq] at h; exact h ▸ rfl
  | .arr _, .arr _, h => by
    simp only [Val.beq] at h; exact congrArg Val.arr (Val.beqList_eq h)
  | .obj _, .obj _, h => by
    simp only [Val.beq] at h; exact congrArg Val.obj (Val.beqObj_eq h)

theorem Val.beqList_eq : ∀ {a b : List Val}, Val.beqList a b = true → a = b
  | [], [], _ => rfl
  | x :: xs, y :: ys, h => by
    simp only [Val.beqList, Bool.and_eq_true] at h
    exact congrArg₂ List.cons (Val.beq_eq h.1) (Val.beqList_eq h.2)

theorem Val.beqObj_eq :
    ∀ {a b : List (String × Val)}, Val.beqObj a b = true → a = b
  | [], [], _ => rfl
  | x :: xs, y :: ys, h => by
    simp only [Val.beqObj, Bool.and_eq_true, beq_iff_eq] at h
    refine congrArg₂ List.cons ?_ (Val.beqObj_eq h.2)
    exact Prod.ext h.1.1 (Val.beq_eq h.1.2)

end

mutual

theorem Val.beq_refl : ∀ a : Val, Val.beq a a = true
  | .null => rfl
  | .bool b => by simp [Val.beq]
  | .num q => by simp [Val.beq]
  | .str s => by simp [Val.beq]
  | .arr xs => by simp only [Val.beq]; exact Val.beqList_refl xs
  | .obj fs => by simp only [Val.beq]; exact Val.beqObj_refl fs

theorem Val.beqList_refl : ∀ a : List Val, Val.beqList a a = true
  | [] => rfl
  | x :: xs => by
    simp only [Val.beqList, Bool.and_eq_true]
    exact ⟨Val.beq_refl x, Val.beqList_refl xs⟩

theorem Val.beqObj_refl : ∀ a : List (String × Val), Val.beqObj a a = true
  | [] => rfl
  | x :: xs => by
    simp only [Val.beqObj, Bool.and_eq_true, beq_self_eq_true, true_and]
    exact ⟨Val.beq_refl x.2, Val.beqObj_refl xs⟩

end

instance : DecidableEq Val := fun a b =>
  if h : Val.beq a b = true then .isTrue (Val.beq_eq h)
  else .isFalse fun he => h (he ▸ Val.beq_refl a)

/-- A top-level record (`parser.Record`, i.e. `map[string]interface{}`). -/
abbrev Rec := List (String × Val)

/-- ASCII upper-casing, models `strings.ToUpper` on the ASCII inputs used. -/
def goToUpper (s : String) : String :=
  String.mk (s.data.map Char.toUpper)

/-- ASCII space test for `strings.TrimSpace` (`unicode.IsSpace` restricted
to the ASCII inputs that occur). -/
def isGoSpace (c : Char) : Bool :=
  c == ' ' || c == '\t' || c == '\n' || c == '\r'

/-- `strings.TrimSpace`. -/
def goTrimSpace (s : String) : String :=
  String.mk (((s.data.dropWhile isGoSpace).reverse.dropWhile isGoSpace).reverse)

/-- First index of `sub` in `s` (`strings.Index`), on char lists. -/
def goIndexChars : List Char → List Char → Option Nat
  | _, [] => some 0
  | [], _ :: _ => none
  | c :: cs, sub =>
    if sub.isPrefixOf (c :: cs) then some 0
    else (goIndexChars cs sub).map (· + 1)

/-- `strings.Index s sub` (−1 becomes `none`). -/
def goIndex (s sub : String) : Option Nat :=
  goIndexChars s.data sub.data

/-- `strings.Contains` (substring containment). -/
def goContains (s sub : String) : Bool :=
  (goIndex s sub).isSome

/-- `strings.HasPrefix`. -/
def goStartsWith (s pre : String) : Bool :=
  pre.data.isPrefixOf s.data

/-- `strings.HasSuffix`. -/
def goEndsWith (s suf : String) : Bool :=
  suf.data.isSuffixOf s.data

/-- Render an integer (used by `formatVal` for integral floats). -/
def intRepr (i : Int) : String := toString i

/-- Lexicographic char-list comparison (Go `<=` on strings;
byte-lexicographic equals codepoint-lexicographic under UTF-8). -/
def charsLe : List Char → List Char → Bool
  | [], _ => true
  | _ :: _, [] => false
  | a :: l₁, b :: l₂ => if a < b then true else if b < a then false else charsLe l₁ l₂

/-- Strict lexicographic char-list comparison (Go `<` on strings). -/
def charsLt : List Char → List Char → Bool
  | [], [] => false
  | [], _ :: _ => true
  | _ :: _, [] => false
  | a :: l₁, b :: l₂ => if a < b then true else if b < a then false else charsLt l₁ l₂

/-- Go string `<=`. -/
def strLe (a b : String) : Bool :=
  charsLe a.data b.data

/-- Go string `<`. -/
def strLt (a b : String) : Bool :=
  charsLt a.data b.data

/-- Sorted insertion for `sort.Strings`. -/
def insertSortedStr (k : String) : List String → List String
  | [] => [k]
  | x :: xs => if strLe k x then k :: x :: xs else x :: insertSortedStr k xs

/-- Go's `sort.Strings` (ascending lexicographic; the group keys sorted
with it are pairwise distinct, so stability is irrelevant). -/
def sortStrings (l : List String) : List String :=
  l.foldr insertSortedStr []

/-- Join the already-rendered, to-be-sorted `key:value` strings. -/
def formatValEntries (l : List String) : String :=
  String.intercalate " " (sortStrings l)

mutual

/-- `fmt.Sprintf("%v", v)`.  Exact for nil, bools, strings and integral
floats; maps print sorted by key as Go's `fmt` does.  Non-integral
rationals get the abstract rendering `num/den` (no theorem depends on
it). -/
def formatVal : Val → String
  | .null => "<nil>"
  | .bool b => if b then "true" else "false"
  | .num q => if q.den = 1 then intRepr q.num else intRepr q.num ++ "/" ++ intRepr q.den
  | .str s => s
  | .arr xs => "[" ++ formatValList xs ++ "]"
  | .obj fs => "map[" ++ formatValEntries (formatValObjEntries fs) ++ "]"

/-- Space-separated element rendering of a slice for `%v`. -/
def formatValList : List Val → String
  | [] => ""
  | [x] => formatVal x
  | x :: xs => formatVal x ++ " " ++ formatValList xs

/-- Rendered `key:value` strings of a map for `%v` (before sorting). -/
def formatValObjEntries : List (String × Val) → List String
  | [] => []
  | (k, v) :: rest => (k ++ ":" ++ formatVal v) :: formatValObjEntries rest

end

/-- Digit run to number (helper shared by the `strconv` models). -/
def digitsVal (l : List Char) : Nat :=
  l.foldl (fun a c => a * 10 + (c.toNat - '0'.toNat)) 0

/-- Decimal-string parsing of `strconv.ParseFloat` (the decimal fragment:
sign, digits, optional fraction, optional exponent; hex floats,
inf/NaN and digit-group underscores are outside the model; the exact
rational replaces the rounded binary double). -/
def goParseFloat (s : String) : Option ℚ :=
  let cs := s.data
  let (neg, cs) :=
    match cs with
    | '-' :: rest => (true, rest)
    | '+' :: rest => (false, rest)
    | _ => (false, cs)
  let intPart := cs.takeWhile Char.isDigit
  let cs := cs.dropWhile Char.isDigit
  let (fracPart, cs) :=
    match cs with
    | '.' :: rest => (rest.takeWhile Char.isDigit, rest.dropWhile Char.isDigit)
    | _ => ([], cs)
  if intPart.isEmpty ∧ fracPart.isEmpty then none
  else
    let mantNum : Nat := digitsVal (intPart ++ fracPart)
    let mantDen : Nat := 10 ^ fracPart.length
    let signed : Int := if neg then -(mantNum : Int) else (mantNum : Int)
    match cs with
    | [] => some (mkRat signed mantDen)
    | e :: rest =>
      if e == 'e' ∨ e == 'E' then
        let (eneg, rest) :=
          match rest with
          | '-' :: r => (true, r)
          | '+' :: r => (false, r)
          | _ => (false, rest)
        let eDigits := rest.takeWhile Char.isDigit
        let rest := rest.dropWhile Char.isDigit
        if eDigits.isEmpty ∨ ¬ rest.isEmpty then none
        else
          let ex := digitsVal eDigits
          if eneg then some (mkRat signed (mantDen * 10 ^ ex))
          else some (mkRat (signed * ((10 ^ ex : Nat) : Int)) mantDen)
      else none

end JSL

namespace JSL.Query

open JSL

/-- `pkg/query` `toFloat64` (second revision): numeric Go types pass
through; everything else goes through `fmt.Sprintf("%v", ·)` and
`strconv.ParseFloat`. -/
def toFloat64 (v : Val) : Option ℚ :=
  match v with
  | .num q => some q
  | v => goParseFloat (formatVal v)

/-- `compareEqual` of `pkg/query`: typed comparison for strings, floats and
bools, `%v`-string comparison otherwise. -/
def compareEqual (a b : Val) : Bool :=
  match a, b with
  | .str x, .str y => x == y
  | .num x, .num y => x == y
  | .bool x, .bool y => x == y
  | _, _ => formatVal a == formatVal b

/-- `compareGreater` of `pkg/query`: false unless both sides convert. -/
def compareGreater (a b : Val) : Bool :=
  match toFloat64 a, toFloat64 b with
  | some x, some y => decide (x > y)
  | _, _ => false

/-- `compareGreaterEqual` of `pkg/query`. -/
def compareGreaterEqual (a b : Val) : Bool :=
  match toFloat64 a, toFloat64 b with
  | some x, some y => decide (x ≥ y)
  | _, _ => false

/-- `compareLess` of `pkg/query`. -/
def compareLess (a b : Val) : Bool :=
  match toFloat64 a, toFloat64 b with
  | some x, some y => decide (x < y)
  | _, _ => false

/-- `compareLessEqual` of `pkg/query`. -/
def compareLessEqual (a b : Val) : Bool :=
  match toFloat64 a, toFloat64 b with
  | some x, some y => decide (x ≤ y)
  | _, _ => false

/-- `containsValue` of `pkg/query`: substring search on the `%v` forms
(string operands are their own `%v` form). -/
def containsValue (a b : Val) : Bool :=
  goContains (formatVal a) (formatVal b)

/-- The Go `Filter` struct (`Field`, `Operator`, `Value`). -/
structure Filter where
  field : String
  operator : String
  value : Val
deriving DecidableEq

/-- The operator dispatch at the bottom of `Filter.matchValue`. -/
def scalarMatch (f : Filter) (value : Val) : Bool :=
  match f.operator with
  | "=" => compareEqual value f.value
  | "==" => compareEqual value f.value
  | "!=" => !compareEqual value f.value
  | ">" => compareGreater value f.value
  | ">=" => compareGreaterEqual value f.value
  | "<" => compareLess value f.value
  | "<=" => compareLessEqual value f.value
  | "contains" => containsValue value f.value
  | _ => false

mutual

/-- `Filter.matchValue`: a collection matches iff any contained value
matches, recursively; scalars use the operator dispatch. -/
def matchValue (f : Filter) (value : Val) : Bool :=
  match value with
  | .obj fs => matchValueObj f fs
  | .arr xs => matchValueList f xs
  | v => scalarMatch f v

/-- Iteration over a map's values inside `matchValue`. -/
def matchValueObj (f : Filter) : List (String × Val) → Bool
  | [] => false
  | (_, v) :: rest => matchValue f v || matchValueObj f rest

/-- Iteration over a slice inside `matchValue`. -/
def matchValueList (f : Filter) : List Val → Bool
  | [] => false
  | v :: rest => matchValue f v || matchValueList f rest

end

mutual

/-- The scalar (non-map, non-slice) values recursively contained in a
value; a scalar contains itself.  Specification-side companion for the
existential reading of `matchValue`. -/
def containedScalars : Val → List Val
  | .obj fs => containedScalarsObj fs
  | .arr xs => containedScalarsList xs
  | v => [v]

/-- Contained scalars of a map's values. -/
def containedScalarsObj : List (String × Val) → List Val
  | [] => []
  | (_, v) :: rest => containedScalars v ++ containedScalarsObj rest

/-- Contained scalars of a slice. -/
def containedScalarsList : List Val → List Val
  | [] => []
  | v :: rest => containedScalars v ++ containedScalarsList rest

end

/-- `strconv.Atoi`. -/
def goParseInt (s : String) : Option Int :=
  match s.data with
  | [] => none
  | '-' :: rest =>
    if rest ≠ [] ∧ rest.all Char.isDigit then some (-(digitsVal rest : Int)) else none
  | '+' :: rest =>
    if rest ≠ [] ∧ rest.all Char.isDigit then some (digitsVal rest : Int) else none
  | l => if l.all Char.isDigit then some (digitsVal l : Int) else none

/-- The comparison-operator list used by the path code
(`[">=", "<=", "!=", "~=", ">", "<", "="]`, in source order). -/
def pathOps : List String := [">=", "<=", "!=", "~=", ">", "<", "="]

/-- Does a candidate segment contain any comparison operator
(`strings.Contains` check inside `parsePath`)? -/
def segContainsOp (seg : List Char) : Bool :=
  pathOps.any fun op => (goIndexChars seg op.data).isSome

/-- The scanning loop of `parsePath` (second revision): a dot splits
unless the upcoming segment contains an operator, except that a
wildcard current segment always forces a split. -/
def parsePathLoop (cs : List Char) (cur : List Char) : List (List Char) :=
  match cs with
  | [] => [cur]
  | c :: rest =>
    if c = '.' then
      let segment :=
        match goIndexChars rest ['.'] with
        | some i => rest.take i
        | none => rest
      let isSep :=
        if segContainsOp segment then cur = ['*'] ∨ cur = ['%'] else True
      if isSep then cur :: parsePathLoop rest []
      else parsePathLoop rest (cur ++ ['.'])
    else parsePathLoop rest (cur ++ [c])

/-- `parsePath`: trim one leading dot, smart-split on dots, drop empty
parts. -/
def parsePath (path : String) : List String :=
  let path := if goStartsWith path "." then String.mk (path.data.drop 1) else path
  if path = "" then []
  else ((parsePathLoop path.data []).map String.mk).filter (· ≠ "")

/-- `IsFilterExpression`: contains an operator and does not start with a
dot. -/
def IsFilterExpression (expr : String) : Bool :=
  if goStartsWith expr "." then false
  else pathOps.any fun op => goContains expr op

/-- The parsed form `FilterExpr` (`Field`, `Operator`, `Value`), all
strings. -/
structure FilterExpr where
  field : String
  operator : String
  value : String
deriving DecidableEq

/-- `ParseFilterExpression`: first operator (in list order) occurring at
a positive index with nonempty trimmed field and value wins; `~=`
becomes `contains`. -/
def ParseFilterExpression (expr : String) : Option FilterExpr :=
  pathOps.findSome? fun op =>
    match goIndex expr op with
    | some idx =>
      if 0 < idx then
        let field := goTrimSpace (String.mk (expr.data.take idx))
        let value := goTrimSpace (String.mk (expr.data.drop (idx + op.length)))
        if field ≠ "" ∧ value ≠ "" then
          some ⟨field, if op = "~=" then "contains" else op, value⟩
        else none
      else none
    | none => none

/-- Operator dispatch used by the inline-predicate branch of
`extractFromMap` (value compared against the parsed filter literal). -/
def inlineCompare (op : String) (val filterVal : Val) : Bool :=
  match op with
  | "=" => compareEqual val filterVal
  | "==" => compareEqual val filterVal
  | "!=" => !compareEqual val filterVal
  | ">" => compareGreater val filterVal
  | ">=" => compareGreaterEqual val filterVal
  | "<" => compareLess val filterVal
  | "<=" => compareLessEqual val filterVal
  | "contains" => containsValue val filterVal
  | _ => false

/-- Key match of the wildcard-over-mapping branch: the mapping key is
compared to the inline literal as a Go string. -/
def wildcardKeyMatch (op : String) (k filterValue : String) : Bool :=
  match op with
  | "*" => true
  | "=" => k == filterValue
  | "!=" => k != filterValue
  | "~=" => goContains k filterValue
  | ">" => strLt filterValue k
  | ">=" => strLe filterValue k
  | "<" => strLt k filterValue
  | "<=" => strLe k filterValue
  | _ => false

/-- Wildcard-operator scan of `extractFromMap`: `*` or `%` followed by
an operator and literal (`strings.HasPrefix(part, w+op)`; the literal
is `part[len(op)+1:]`). -/
def parseWildcardPart (part : String) : Option (String × String) :=
  if part = "*" ∨ part = "%" then some ("*", "")
  else
    (["*", "%"].findSome? fun w =>
      pathOps.findSome? fun op =>
        if goStartsWith part (w ++ op) then
          some (op, String.mk (part.data.drop (op.length + 1)))
        else none)

mutual

/-- Size of a value (fuel bound helper for the extractor). -/
def valSize : Val → Nat
  | .arr xs => 1 + valSizeList xs
  | .obj fs => 1 + valSizeObj fs
  | _ => 1

/-- Size of a value list. -/
def valSizeList : List Val → Nat
  | [] => 1
  | x :: rest => valSize x + valSizeList rest

/-- Size of a key/value list. -/
def valSizeObj : List (String × Val) → Nat
  | [] => 1
  | (_, v) :: rest => valSize v + valSizeObj rest

end

mutual

/-- `extractValue` (second revision), fuel-bounded; every recursive call
consumes one unit of fuel, and the fuel supplied by `Extract` dominates
the recursion for the inputs the theorems evaluate (theorems about
arbitrary records treat extraction as opaque). -/
def extractValue : Nat → Val → List String → Option Val
  | 0, _, _ => none
  | _ + 1, v, [] => some v
  | fuel + 1, v, part :: remaining =>
    match v with
    | .obj fs => extractFromMap fuel fs part remaining
    | .arr xs =>
      if part = "*" ∨ part = "%" then
        some (.arr (extractArrWild fuel xs remaining))
      else
        match goParseInt part with
        | none => none
        | some idx =>
          if idx < 0 ∨ (xs.length : Int) ≤ idx then none
          else extractValue fuel (xs.getD idx.toNat .null) remaining
    | _ => none

/-- Wildcard-over-array: elements whose extraction fails are skipped. -/
def extractArrWild : Nat → List Val → List String → List Val
  | 0, _, _ => []
  | _ + 1, [], _ => []
  | fuel + 1, x :: rest, remaining =>
    match extractValue fuel x remaining with
    | some v => v :: extractArrWild fuel rest remaining
    | none => extractArrWild fuel rest remaining

/-- `extractFromMap` (second revision): inline-predicate branch, then
plain key access, then wildcard-over-mapping. -/
def extractFromMap : Nat → List (String × Val) → String → List String → Option Val
  | 0, _, _, _ => none
  | fuel + 1, fs, part, remaining =>
    let filterStep : Option (Option Val) :=
      if IsFilterExpression part then
        match ParseFilterExpression part with
        | some expr =>
          match extractQ fuel fs expr.field with
          | some val =>
            let filterVal :=
              match goParseFloat expr.value with
              | some n => Val.num n
              | none => Val.str expr.value
            if inlineCompare expr.operator val filterVal then
              some (extractValue fuel (.obj fs) remaining)
            else some none
          | none => none
        | none => none
      else none
    match filterStep with
    | some r => r
    | none =>
      if ¬ goStartsWith part "*" ∧ ¬ goStartsWith part "%" then
        match fs.lookup part with
        | some val => extractValue fuel val remaining
        | none => none
      else
        match parseWildcardPart part with
        | none => none
        | some (op, filterValue) =>
          let results := extractObjWild fuel fs op filterValue remaining
          if results = [] then none else some (.obj results)

/-- Wildcard-over-mapping: keys passing the inline comparison continue
down the remaining path; failures are dropped.  (Go iterates the map in
unspecified order and returns a plain map; the model keeps the source
entry order, which no verified property depends on.) -/
def extractObjWild : Nat → List (String × Val) → String → String → List String → List (String × Val)
  | 0, _, _, _, _ => []
  | _ + 1, [], _, _, _ => []
  | fuel + 1, (k, v) :: rest, op, filterValue, remaining =>
    if wildcardKeyMatch op k filterValue then
      match extractValue fuel v remaining with
      | some r => (k, r) :: extractObjWild fuel rest op filterValue remaining
      | none => extractObjWild fuel rest op filterValue remaining
    else extractObjWild fuel rest op filterValue remaining

/-- `Query.Extract` on a mapping (used re-entrantly by the
inline-predicate branch): root paths return the mapping itself. -/
def extractQ : Nat → List (String × Val) → String → Option Val
  | 0, _, _ => none
  | fuel + 1, fs, path =>
    if path = "" ∨ path = "." then some (.obj fs)
    else extractValue fuel (.obj fs) (parsePath path)

end

/-- Extraction fuel: generous bound in the path length and record size
(each unit pays for one recursive call). -/
def extractFuel (rec : Rec) (path : String) : Nat :=
  (path.length + 2) * (path.length + 2) * (valSizeObj rec + 2)

/-- `Query.Extract` applied to a record (`NewQuery(path).Extract(record)`). -/
def Extract (rec : Rec) (path : String) : Option Val :=
  extractQ (extractFuel rec path) rec path

/-- `Filter.Match`: extract, then match.  Go type artifact kept: for a
path whose `parsePath` is empty the extracted value is the record
itself with dynamic type `parser.Record`, which `matchValue`'s
`case map[string]interface{}` does not match, so the record is compared
as a scalar (its `%v` form). -/
def Filter.Match (f : Filter) (rec : Rec) : Bool :=
  match Extract rec f.field with
  | none => false
  | some value =>
    if parsePath f.field = [] then scalarMatch f value
    else matchValue f value

/-- The boolean `Expression` tree (`Condition` / `AndExpression` /
`OrExpression`). -/
inductive Expression where
  | cond (f : Filter)
  | and (l r : Expression)
  | or (l r : Expression)
deriving DecidableEq

/-- `Expression.Evaluate(record)`. -/
def Expression.Evaluate : Expression → Rec → Bool
  | .cond f, rec => f.Match rec
  | .and l r, rec => l.Evaluate rec && r.Evaluate rec
  | .or l r, rec => l.Evaluate rec || r.Evaluate rec

/-- Case-insensitive, non-overlapping scan of `splitByOperator`
(split positions found on the upper-cased strings, segments taken from
the original); fuel-bounded, one unit per character, so `length + 1`
always suffices. -/
def ciSplitAux : Nat → List Char → List Char → List Char → List (List Char)
  | 0, s, _, cur => [cur.reverse ++ s]
  | fuel + 1, s, op, cur =>
    match s with
    | [] => [cur.reverse]
    | c :: rest =>
      if (op.map Char.toUpper).isPrefixOf ((c :: rest).map Char.toUpper) then
        cur.reverse :: ciSplitAux fuel (rest.drop (op.length - 1)) op []
      else ciSplitAux fuel rest op (c :: cur)

/-- `splitByOperator`: single part is returned untrimmed, several parts
are trimmed. -/
def splitByOperator (s op : String) : List String :=
  let parts := ciSplitAux (s.length + 1) s.data op.data []
  if parts.length = 1 then [s]
  else parts.map fun p => goTrimSpace (String.mk p)

/-- The error condition `ParseExpression` falls back to when the leaf
text is not a filter expression. -/
def invalidCondition : Expression :=
  .cond ⟨"error", "=", .str "invalid"⟩

/-- Legacy `ParseExpression` (string-splitting precedence parser),
fuel-bounded; every split strictly shrinks the input, so
`s.length + 1` fuel (see `ParseExpressionTop`) always suffices. -/
def ParseExpression : Nat → String → Expression
  | 0, _ => invalidCondition
  | fuel + 1, input =>
    let input := goTrimSpace input
    let orParts := splitByOperator input " OR "
    if 1 < orParts.length then
      match orParts with
      | [] => invalidCondition
      | p :: rest =>
        rest.foldl (fun e q => .or e (ParseExpression fuel q)) (ParseExpression fuel p)
    else
      let andParts := splitByOperator input " AND "
      if 1 < andParts.length then
        match andParts with
        | [] => invalidCondition
        | p :: rest =>
          rest.foldl (fun e q => .and e (ParseExpression fuel q)) (ParseExpression fuel p)
      else
        if goStartsWith input "(" ∧ goEndsWith input ")" then
          ParseExpression fuel (String.mk (input.data.drop 1).dropLast)
        else
          match ParseFilterExpression input with
          | none => invalidCondition
          | some fe => .cond ⟨fe.field, fe.operator, .str fe.value⟩

/-- Legacy `ParseExpression` entry point. -/
def ParseExpressionTop (s : String) : Expression :=
  ParseExpression (s.length + 1) s

/-- The query-IR `Field` (`Path`, `Alias`, `Aggregate`). -/
structure Field where
  Path : String
  Alias : String
  Aggregate : String
deriving DecidableEq

/-- The query IR `SelectQuery` (`Fields`, `FromTable`, `FromQuery`,
`Filter`, `GroupBy`). -/
inductive SelectQuery where
  | mk (fields : List Field) (fromTable : String) (fromQuery : Option SelectQuery)
      (filter : Option Expression) (groupBy : String)

/-- Field list of a `SelectQuery`. -/
def SelectQuery.fields : SelectQuery → List Field
  | .mk fs _ _ _ _ => fs

/-- Named-table source of a `SelectQuery`. -/
def SelectQuery.fromTable : SelectQuery → String
  | .mk _ t _ _ _ => t

/-- Nested-subquery source of a `SelectQuery`. -/
def SelectQuery.fromQuery : SelectQuery → Option SelectQuery
  | .mk _ _ q _ _ => q

/-- WHERE expression of a `SelectQuery`. -/
def SelectQuery.filter : SelectQuery → Option Expression
  | .mk _ _ _ f _ => f

/-- GROUP BY path of a `SelectQuery`. -/
def SelectQuery.groupBy : SelectQuery → String
  | .mk _ _ _ _ g => g

end JSL.Query

namespace JSL.Sql

open JSL

/-- Lexer tokens of the participle grammar (`String` tokens already
unquoted by `participle.Unquote`). -/
inductive Tok where
  | kw (s : String)
  | ident (s : String)
  | numTok (s : String)
  | strTok (s : String)
  | opTok (s : String)
  | punct (s : String)
deriving DecidableEq

/-- `\w` of the lexer regexes. -/
def isWordChar (c : Char) : Bool :=
  c.isAlpha || c.isDigit || c == '_'

/-- The keyword alternation of the lexer. -/
def kwList : List String :=
  ["SELECT", "FROM", "WHERE", "GROUP", "BY", "AS", "AND", "OR", "TRUE", "FALSE", "CONTAINS"]

/-- Case-insensitive prefix match returning the rest (keyword side is
upper-case). -/
def ciPrefixRest : List Char → List Char → Option (List Char)
  | [], rest => some rest
  | _ :: _, [] => none
  | k :: ks, c :: cs => if c.toUpper = k then ciPrefixRest ks cs else none

/-- Keyword rule at the current position (the left word boundary is
checked by the caller; the right boundary requires a non-word
follower).  The token keeps the original spelling. -/
def matchKw (cs : List Char) : Option (String × List Char) :=
  kwList.findSome? fun kw =>
    match ciPrefixRest kw.data cs with
    | some rest =>
      match rest with
      | [] => some (String.mk (cs.take kw.length), [])
      | c :: _ =>
        if isWordChar c then none else some (String.mk (cs.take kw.length), rest)
    | none => none

/-- Number rule `[-+]?\d*\.?\d+` with leftmost-greedy backtracking
semantics: maximal digit run, a following `.` only kept when a digit
follows it. -/
def scanNumber (cs : List Char) : Option (String × List Char) :=
  let (sign, rest) :=
    match cs with
    | c :: r => if c = '-' ∨ c = '+' then ([c], r) else (([] : List Char), cs)
    | [] => ([], [])
  let d1 := rest.takeWhile Char.isDigit
  let rest1 := rest.dropWhile Char.isDigit
  match rest1 with
  | '.' :: r2 =>
    let d2 := r2.takeWhile Char.isDigit
    if d2 ≠ [] then some (String.mk (sign ++ d1 ++ '.' :: d2), r2.dropWhile Char.isDigit)
    else if d1 ≠ [] then some (String.mk (sign ++ d1), rest1)
    else none
  | _ => if d1 ≠ [] then some (String.mk (sign ++ d1), rest1) else none

/-- String rule `'[^']*'|"[^"]*"`; `cs` is the input after the opening
quote; the token value is the unquoted content. -/
def scanQuoted (q : Char) (cs : List Char) : Option (String × List Char) :=
  let content := cs.takeWhile (· ≠ q)
  match cs.dropWhile (· ≠ q) with
  | _ :: rest => some (String.mk content, rest)
  | [] => none

/-- Operator rule `>=|<=|!=|~=|\.\.|[=<>!~]`, alternatives in order. -/
def opList : List String := [">=", "<=", "!=", "~=", "..", "=", "<", ">", "!", "~"]

/-- Scan an operator token. -/
def scanOp (cs : List Char) : Option (String × List Char) :=
  opList.findSome? fun op =>
    if op.data.isPrefixOf cs then some (op, cs.drop op.length) else none

/-- Punctuation class `[-+/*%,.()]`. -/
def punctChars : List Char := ['-', '+', '/', '*', '%', ',', '.', '(', ')']

/-- The lexer loop: rules tried in source order (Keyword, Ident, Number,
String, Operator, Punct, elided Whitespace); `prevWord` tracks whether
the previous character is a word character (for the keyword rule's left
`\b`; every keyword starts with a word character). -/
def lexLoop : Nat → List Char → Bool → Option (List Tok)
  | 0, _, _ => none
  | _ + 1, [], _ => some []
  | fuel + 1, c :: cs, prevWord =>
    let cur := c :: cs
    match (if prevWord then none else matchKw cur) with
    | some (s, rest) => (lexLoop fuel rest true).map (Tok.kw s :: ·)
    | none =>
      if c.isAlpha ∨ c = '_' then
        let w := cur.takeWhile isWordChar
        (lexLoop fuel (cur.dropWhile isWordChar) true).map (Tok.ident (String.mk w) :: ·)
      else
        match scanNumber cur with
        | some (s, rest) => (lexLoop fuel rest true).map (Tok.numTok s :: ·)
        | none =>
          if c = '\'' ∨ c = '"' then
            match scanQuoted c cs with
            | some (s, rest) => (lexLoop fuel rest false).map (Tok.strTok s :: ·)
            | none => none
          else
            match scanOp cur with
            | some (s, rest) => (lexLoop fuel rest false).map (Tok.opTok s :: ·)
            | none =>
              if punctChars.contains c then
                (lexLoop fuel cs false).map (Tok.punct (String.mk [c]) :: ·)
              else if isGoSpace c then lexLoop fuel cs false
              else none

/-- Run the lexer (each step consumes at least one character, so
`length + 1` fuel suffices). -/
def lexString (s : String) : Option (List Tok) :=
  lexLoop (s.length + 1) s.data false

/-- Path value of the grammar (`ASTValue.Parts`). -/
structure ASTValue where
  parts : List String
deriving DecidableEq

/-- `ASTValue.String()`. -/
def ASTValue.toStr (v : ASTValue) : String :=
  String.intercalate "." v.parts

/-- `ASTLiteral` (number / quoted string / boolean). -/
inductive ASTLiteral where
  | num (q : ℚ)
  | str (s : String)
  | bool (b : Bool)
deriving DecidableEq

mutual

/-- `ASTSelect` (pointer fields modelled by `Option`; repeated fields by
the companion list types, since `List` cannot nest inside a mutual
inductive block). -/
inductive ASTSelect : Type where
  | mk (selectFields : ASTSelectFieldList) (fromC : Option ASTFromClause)
      (whereE : Option ASTExpression) (groupBy : Option ASTValue)

/-- Select-field list of an `ASTSelect`. -/
inductive ASTSelectFieldList : Type where
  | nil
  | cons (head : ASTSelectField) (tail : ASTSelectFieldList)

/-- `ASTSelectField`. -/
inductive ASTSelectField : Type where
  | mk (expression : Option ASTExpression) (Alias : String)

/-- `ASTFromClause` (named table or subquery). -/
inductive ASTFromClause : Type where
  | table (name : String)
  | sub (q : ASTSelect)

/-- `ASTExpression` (`OR`-separated list). -/
inductive ASTExpression : Type where
  | mk (ors : ASTOrCondList)

/-- `OR`-operand list. -/
inductive ASTOrCondList : Type where
  | nil
  | cons (head : ASTOrCondition) (tail : ASTOrCondList)

/-- `ASTOrCondition` (`AND`-separated list). -/
inductive ASTOrCondition : Type where
  | mk (ands : ASTCondList)

/-- `AND`-operand list. -/
inductive ASTCondList : Type where
  | nil
  | cons (head : ASTCondition) (tail : ASTCondList)

/-- `ASTCondition` (parenthesised group or simple condition). -/
inductive ASTCondition : Type where
  | grouped (e : ASTExpression)
  | simple (s : ASTSimpleCondition)

/-- `ASTSimpleCondition` (operand with optional comparison). -/
inductive ASTSimpleCondition : Type where
  | mk (operand : ASTOperand) (op : Option String) (value : Option ASTOperand)

/-- `ASTOperand` (`ASTFunction` inlined as the `func` variant). -/
inductive ASTOperand : Type where
  | func (name : String) (args : ASTOperandList)
  | lit (l : ASTLiteral)
  | value (v : ASTValue)
  | sub (q : ASTSelect)

/-- Function-argument list. -/
inductive ASTOperandList : Type where
  | nil
  | cons (head : ASTOperand) (tail : ASTOperandList)

end

open JSL.Query in
/-- `ASTLiteral.String()` (a float prints as `%v`). -/
def litStr : ASTLiteral → String
  | .num q => formatVal (.num q)
  | .str s => "'" ++ s ++ "'"
  | .bool b => if b then "true" else "false"

/-- `ASTLiteral.ToValue()`. -/
def litToValue : ASTLiteral → Val
  | .num q => .num q
  | .str s => .str s
  | .bool b => .bool b

mutual

/-- `ASTOperand.String()`. -/
def operandStr : ASTOperand → String
  | .func name args => name ++ "(" ++ String.intercalate "," (operandStrList args) ++ ")"
  | .lit l => litStr l
  | .value v => v.toStr
  | .sub _ => "(SUBQUERY)"

/-- Rendering of a function's argument list. -/
def operandStrList : ASTOperandList → List String
  | .nil => []
  | .cons o rest => operandStr o :: operandStrList rest

end

/-- `ASTOperand.ToValue()`. -/
def operandToValue (o : ASTOperand) : Val :=
  match o with
  | .lit l => litToValue l
  | .value v => .str v.toStr
  | o => .str (operandStr o)

/-- `ASTOperand.getSimplePath()`. -/
def getSimplePath : ASTOperand → String × String
  | .value v => (v.toStr, "")
  | _ => ("", "")

/-- `fmtKey`: default alias of an aggregate field. -/
def fmtKey (agg path : String) : String :=
  agg ++ "_" ++ String.mk (path.data.map fun c => if c = '.' then '_' else c)

/-- `ASTSelectField.Info()`: the path and aggregate name of a select
field (only the first simple condition of the expression is
inspected). -/
def selectFieldInfo : ASTSelectField → String × String
  | .mk none _ => ("", "")
  | .mk (some e) _ =>
    match e with
    | .mk .nil => ("", "")
    | .mk (.cons oc _) =>
      match oc with
      | .mk .nil => ("", "")
      | .mk (.cons c _) =>
        match c with
        | .grouped _ => ("", "")
        | .simple s =>
          match s with
          | .mk operand _ _ =>
            match operand with
            | .func name args =>
              (match args with
               | .cons a _ => (getSimplePath a).1
               | .nil => "",
               name)
            | .value v => (v.toStr, "")
            | _ => ("", "")

open JSL.Query

mutual

/-- `ASTExpression.ToExpression()`: left fold of `OR`.  Go would embed a
nil child into the tree (and crash on evaluation); the model returns
`none` for the whole expression in that case. -/
def exprToExpression : ASTExpression → Option Expression
  | .mk .nil => none
  | .mk (.cons oc rest) => orListFold (orCondToExpression oc) rest

/-- Fold of the remaining `OR` children. -/
def orListFold : Option Expression → ASTOrCondList → Option Expression
  | acc, .nil => acc
  | acc, .cons oc rest =>
    match acc, orCondToExpression oc with
    | some l, some r => orListFold (some (.or l r)) rest
    | _, _ => none

/-- `ASTOrCondition.ToExpression()`: left fold of `AND`. -/
def orCondToExpression : ASTOrCondition → Option Expression
  | .mk .nil => none
  | .mk (.cons c rest) => andListFold (condToExpression c) rest

/-- Fold of the remaining `AND` children. -/
def andListFold : Option Expression → ASTCondList → Option Expression
  | acc, .nil => acc
  | acc, .cons c rest =>
    match acc, condToExpression c with
    | some l, some r => andListFold (some (.and l r)) rest
    | _, _ => none

/-- `ASTCondition.ToExpression()`: a simple condition becomes a
`Condition` filter with the operand's string form as field path, `=`
as default operator and the right operand's `ToValue`. -/
def condToExpression : ASTCondition → Option Expression
  | .grouped e => exprToExpression e
  | .simple (.mk operand op value) =>
    some (.cond ⟨operandStr operand, op.getD "=",
      match value with
      | some v => operandToValue v
      | none => .null⟩)

end

mutual

/-- `ASTSelect.ToSelectQuery()`. -/
def toSelectQuery : ASTSelect → SelectQuery
  | .mk sfs fromC whereE groupBy =>
    .mk (fieldsOf sfs)
      (match fromC with
       | some (.table n) => n
       | _ => "")
      (match fromC with
       | some (.sub q) => some (toSelectQuery q)
       | _ => none)
      (match whereE with
       | some e => exprToExpression e
       | none => none)
      (match groupBy with
       | some v => v.toStr
       | none => "")

/-- Field lowering of the select list (path/aggregate from `Info`,
defaulted alias). -/
def fieldsOf : ASTSelectFieldList → List Field
  | .nil => []
  | .cons f rest =>
    let pa := selectFieldInfo f
    let al :=
      match f with
      | .mk _ a => a
    let al :=
      if al = "" then (if pa.2 ≠ "" then fmtKey pa.2 pa.1 else pa.1) else al
    ⟨pa.1, al, pa.2⟩ :: fieldsOf rest

end

/-- Token value as captured by `@(...)` (original spelling). -/
def tokValue : Tok → String
  | .kw s => s
  | .ident s => s
  | .numTok s => s
  | .strTok s => s
  | .opTok s => s
  | .punct s => s

/-- Matching of a grammar literal against a token: keyword-typed tokens
match case-insensitively (`participle.CaseInsensitive("Keyword")`),
operator and punctuation tokens by value. -/
def litTokMatch (want : String) (t : Tok) : Bool :=
  match t with
  | .kw s => goToUpper s == want
  | .opTok s => s == want
  | .punct s => s == want
  | _ => false

/-- The comparison-operator alternation of `ASTSimpleCondition`. -/
def condOps : List String := ["=", "!=", ">", "<", ">=", "<=", "CONTAINS"]

/-- `ASTLiteral` parser (number, string, `TRUE`/`FALSE`). -/
def pLiteral : List Tok → Option (ASTLiteral × List Tok)
  | (.numTok s) :: rest =>
    match goParseFloat s with
    | some q => some (.num q, rest)
    | none => none
  | (.strTok s) :: rest => some (.str s, rest)
  | t :: rest =>
    if litTokMatch "TRUE" t then some (.bool true, rest)
    else if litTokMatch "FALSE" t then some (.bool false, rest)
    else none
  | [] => none

/-- One path segment (`@Ident | @('*')`). -/
def pValuePart : List Tok → Option (String × List Tok)
  | (.ident s) :: rest => some (s, rest)
  | t :: rest => if litTokMatch "*" t then some ("*", rest) else none
  | [] => none

mutual

/-- `ASTSelect` parser (`'SELECT' field (',' field)* ('FROM' ...)?
('WHERE' ...)? ('GROUP' 'BY' ...)?`); failed optional clauses backtrack
(PEG reading of the participle grammar). -/
def pSelect : Nat → List Tok → Option (ASTSelect × List Tok)
  | 0, _ => none
  | fuel + 1, ts =>
    match ts with
    | t :: ts1 =>
      if litTokMatch "SELECT" t then
        match pSelectField fuel ts1 with
        | some (f0, ts2) =>
          let fsr := pSelectFieldsMore fuel ts2
          let fromr : Option ASTFromClause × List Tok :=
            match fsr.2 with
            | t3 :: ts3 =>
              if litTokMatch "FROM" t3 then
                match pFromClause fuel ts3 with
                | some (fc, r) => (some fc, r)
                | none => (none, fsr.2)
              else (none, fsr.2)
            | [] => (none, fsr.2)
          let wherer :=
            match fromr.2 with
            | t4 :: ts4 =>
              if litTokMatch "WHERE" t4 then
                match pExpression fuel ts4 with
                | some (e, r) => (some e, r)
                | none => (none, fromr.2)
              else (none, fromr.2)
            | [] => (none, fromr.2)
          let gbr :=
            match wherer.2 with
            | t5 :: t6 :: ts5 =>
              if litTokMatch "GROUP" t5 ∧ litTokMatch "BY" t6 then
                match pValue fuel ts5 with
                | some (v, r) => (some v, r)
                | none => (none, wherer.2)
              else (none, wherer.2)
            | _ => (none, wherer.2)
          some (.mk (.cons f0 fsr.1) fromr.1 wherer.1 gbr.1, gbr.2)
        | none => none
      else none
    | [] => none

/-- `(',' SelectField)*`. -/
def pSelectFieldsMore : Nat → List Tok → (ASTSelectFieldList × List Tok)
  | 0, ts => (.nil, ts)
  | fuel + 1, ts =>
    match ts with
    | t :: ts1 =>
      if litTokMatch "," t then
        match pSelectField fuel ts1 with
        | some (f, ts2) =>
          let r := pSelectFieldsMore fuel ts2
          (.cons f r.1, r.2)
        | none => (.nil, ts)
      else (.nil, ts)
    | [] => (.nil, ts)

/-- `ASTSelectField` parser (`Expr ('AS' Ident)?`). -/
def pSelectField : Nat → List Tok → Option (ASTSelectField × List Tok)
  | 0, _ => none
  | fuel + 1, ts =>
    match pExpression fuel ts with
    | some (e, ts1) =>
      match ts1 with
      | t :: (.ident a) :: ts2 =>
        if litTokMatch "AS" t then some (.mk (some e) a, ts2)
        else some (.mk (some e) "", ts1)
      | _ => some (.mk (some e) "", ts1)
    | none => none

/-- `ASTFromClause` parser (`(@Ident | @String) | '(' Select ')'`). -/
def pFromClause : Nat → List Tok → Option (ASTFromClause × List Tok)
  | 0, _ => none
  | fuel + 1, ts =>
    match ts with
    | (.ident n) :: rest => some (.table n, rest)
    | (.strTok n) :: rest => some (.table n, rest)
    | t :: rest =>
      if litTokMatch "(" t then
        match pSelect fuel rest with
        | some (q, t2 :: rest2) =>
          if litTokMatch ")" t2 then some (.sub q, rest2) else none
        | _ => none
      else none
    | [] => none

/-- `ASTExpression` parser (`OrCond ('OR' OrCond)*`). -/
def pExpression : Nat → List Tok → Option (ASTExpression × List Tok)
  | 0, _ => none
  | fuel + 1, ts =>
    match pOrCondition fuel ts with
    | some (oc, ts1) =>
      let r := pOrMore fuel ts1
      some (.mk (.cons oc r.1), r.2)
    | none => none

/-- `('OR' OrCond)*`. -/
def pOrMore : Nat → List Tok → (ASTOrCondList × List Tok)
  | 0, ts => (.nil, ts)
  | fuel + 1, ts =>
    match ts with
    | t :: ts1 =>
      if litTokMatch "OR" t then
        match pOrCondition fuel ts1 with
        | some (oc, ts2) =>
          let r := pOrMore fuel ts2
          (.cons oc r.1, r.2)
        | none => (.nil, ts)
      else (.nil, ts)
    | [] => (.nil, ts)

/-- `ASTOrCondition` parser (`Cond ('AND' Cond)*`). -/
def pOrCondition : Nat → List Tok → Option (ASTOrCondition × List Tok)
  | 0, _ => none
  | fuel + 1, ts =>
    match pCondition fuel ts with
    | some (c, ts1) =>
      let r := pAndMore fuel ts1
      some (.mk (.cons c r.1), r.2)
    | none => none

/-- `('AND' Cond)*`. -/
def pAndMore : Nat → List Tok → (ASTCondList × List Tok)
  | 0, ts => (.nil, ts)
  | fuel + 1, ts =>
    match ts with
    | t :: ts1 =>
      if litTokMatch "AND" t then
        match pCondition fuel ts1 with
        | some (c, ts2) =>
          let r := pAndMore fuel ts2
          (.cons c r.1, r.2)
        | none => (.nil, ts)
      else (.nil, ts)
    | [] => (.nil, ts)

/-- `ASTCondition` parser (`'(' Expr ')' | Simple`), ordered choice. -/
def pCondition : Nat → List Tok → Option (ASTCondition × List Tok)
  | 0, _ => none
  | fuel + 1, ts =>
    let groupedTry : Option (ASTCondition × List Tok) :=
      match ts with
      | t :: ts1 =>
        if litTokMatch "(" t then
          match pExpression fuel ts1 with
          | some (e, t2 :: ts2) =>
            if litTokMatch ")" t2 then some (.grouped e, ts2) else none
          | _ => none
        else none
      | [] => none
    match groupedTry with
    | some r => some r
    | none =>
      match pSimpleCondition fuel ts with
      | some (s, r) => some (.simple s, r)
      | none => none

/-- `ASTSimpleCondition` parser (`Operand (CompareOp Operand)?`). -/
def pSimpleCondition : Nat → List Tok → Option (ASTSimpleCondition × List Tok)
  | 0, _ => none
  | fuel + 1, ts =>
    match pOperand fuel ts with
    | some (o, ts1) =>
      match ts1 with
      | t :: ts2 =>
        if condOps.any fun c => litTokMatch c t then
          match pOperand fuel ts2 with
          | some (v, ts3) => some (.mk o (some (tokValue t)) (some v), ts3)
          | none => some (.mk o none none, ts1)
        else some (.mk o none none, ts1)
      | [] => some (.mk o none none, ts1)
    | none => none

/-- `ASTOperand` parser (`Function | Literal | Value | '(' Select ')'`),
ordered choice. -/
def pOperand : Nat → List Tok → Option (ASTOperand × List Tok)
  | 0, _ => none
  | fuel + 1, ts =>
    let funcTry : Option (ASTOperand × List Tok) :=
      match ts with
      | (.ident name) :: t :: ts1 =>
        if litTokMatch "(" t then
          match pOperand fuel ts1 with
          | some (a0, ts2) =>
            let r := pArgsMore fuel ts2
            match r.2 with
            | t2 :: ts3 =>
              if litTokMatch ")" t2 then some (.func name (.cons a0 r.1), ts3) else none
            | [] => none
          | none => none
        else none
      | _ => none
    match funcTry with
    | some r => some r
    | none =>
      match pLiteral ts with
      | some (l, rest) => some (.lit l, rest)
      | none =>
        match pValue fuel ts with
        | some (v, rest) => some (.value v, rest)
        | none =>
          match ts with
          | t :: ts1 =>
            if litTokMatch "(" t then
              match pSelect fuel ts1 with
              | some (q, t2 :: ts2) =>
                if litTokMatch ")" t2 then some (.sub q, ts2) else none
              | _ => none
            else none
          | [] => none

/-- `(',' Operand)*`. -/
def pArgsMore : Nat → List Tok → (ASTOperandList × List Tok)
  | 0, ts => (.nil, ts)
  | fuel + 1, ts =>
    match ts with
    | t :: ts1 =>
      if litTokMatch "," t then
        match pOperand fuel ts1 with
        | some (o, ts2) =>
          let r := pArgsMore fuel ts2
          (.cons o r.1, r.2)
        | none => (.nil, ts)
      else (.nil, ts)
    | [] => (.nil, ts)

/-- `ASTValue` parser (`(Ident|'*') ('.' (Ident|'*'))*`). -/
def pValue : Nat → List Tok → Option (ASTValue × List Tok)
  | 0, _ => none
  | fuel + 1, ts =>
    match pValuePart ts with
    | some (p, ts1) =>
      let r := pValueMore fuel ts1
      some (⟨p :: r.1⟩, r.2)
    | none => none

/-- `('.' (Ident|'*'))*`. -/
def pValueMore : Nat → List Tok → (List String × List Tok)
  | 0, ts => ([], ts)
  | fuel + 1, ts =>
    match ts with
    | t :: ts1 =>
      if litTokMatch "." t then
        match pValuePart ts1 with
        | some (p, ts2) =>
          let r := pValueMore fuel ts2
          (p :: r.1, r.2)
        | none => ([], ts)
      else ([], ts)
    | [] => ([], ts)

end

/-- Parser fuel: comfortably dominates the recursion depth for every
token list (each level and each list element costs one unit). -/
def parseFuelOf (ts : List Tok) : Nat :=
  (ts.length + 4) * 8

/-- `ParseQuery` of `sql_parser.go`: trim, lex, parse a full `ASTSelect`
consuming all tokens, lower to the IR; `none` models a `ParseError`. -/
def ParseQuery (input : String) : Option SelectQuery :=
  let input := goTrimSpace input
  if input = "" then none
  else
    match lexString input with
    | none => none
    | some ts =>
      match pSelect (parseFuelOf ts) ts with
      | some (ast, []) => some (toSelectQuery ast)
      | _ => none

/-- The `WHERE` sub-grammar applied to a bare condition text, lowered to
an `Expression` (the path a `WHERE` clause takes inside `ParseQuery`). -/
def ParseWhereText (s : String) : Option Expression :=
  match lexString s with
  | none => none
  | some ts =>
    match pExpression (parseFuelOf ts) ts with
    | some (e, []) => exprToExpression e
    | _ => none

mutual

/-- Specification-side semantics of a parsed WHERE expression, written
from the spec's words: an expression is the OR of its or-conditions. -/
def astExprEval (r : Rec) : ASTExpression → Bool
  | .mk ors => astOrsEval r ors

/-- OR over the or-condition list (empty list gives the OR identity). -/
def astOrsEval (r : Rec) : ASTOrCondList → Bool
  | .nil => false
  | .cons oc rest => astOrCondEval r oc || astOrsEval r rest

/-- An or-condition is the AND of its conditions — AND binds tighter
than OR by the grammar's shape. -/
def astOrCondEval (r : Rec) : ASTOrCondition → Bool
  | .mk ands => astAndsEval r ands

/-- AND over the condition list (empty list gives the AND identity). -/
def astAndsEval (r : Rec) : ASTCondList → Bool
  | .nil => true
  | .cons c rest => astCondEval r c && astAndsEval r rest

/-- A condition: a parenthesised group re-enters the same semantics; a
simple condition evaluates the filter built from operand, operator and
literal. -/
def astCondEval (r : Rec) : ASTCondition → Bool
  | .grouped e => astExprEval r e
  | .simple (.mk operand op value) =>
    Query.Filter.Match
      ⟨operandStr operand, op.getD "=",
        match value with
        | some v => operandToValue v
        | none => .null⟩ r

end

end JSL.Sql

namespace JSL.Plan

open JSL JSL.Query

/-- `pkg/plan` `toFloat64`: numeric types and strings convert (strings
via `strconv.ParseFloat`), everything else fails. -/
def toFloat64 (v : Val) : Option ℚ :=
  match v with
  | .num q => some q
  | .str s => goParseFloat s
  | _ => none

/-- `pkg/plan` `compareGreater` (used by the MAX accumulator): numeric
when both sides convert, otherwise Go string comparison of the `%v`
forms. -/
def compareGreater (a b : Val) : Bool :=
  match toFloat64 a, toFloat64 b with
  | some x, some y => decide (x > y)
  | _, _ => strLt (formatVal b) (formatVal a)

/-- `pkg/plan` `compareLess` (used by the MIN accumulator). -/
def compareLess (a b : Val) : Bool :=
  match toFloat64 a, toFloat64 b with
  | some x, some y => decide (x < y)
  | _, _ => strLt (formatVal a) (formatVal b)

/-- The five accumulator kinds of the aggregator registry. -/
inductive AggKind where
  | max
  | min
  | avg
  | count
  | sum
deriving DecidableEq

/-- `createAggregator`: unknown names silently fall back to COUNT. -/
def createAggregator (funcName : String) : AggKind :=
  match goToUpper funcName with
  | "MAX" => .max
  | "MIN" => .min
  | "AVG" => .avg
  | "COUNT" => .count
  | "SUM" => .sum
  | _ => .count

mutual

/-- `maxAggregator.Add`: skip nil, flatten slices recursively, keep the
greater value. -/
def maxAdd : Option Val → Val → Option Val
  | cur, .null => cur
  | cur, .arr xs => maxAddList cur xs
  | none, v => some v
  | some c, v => if compareGreater v c then some v else some c

/-- Slice flattening of `maxAggregator.Add`. -/
def maxAddList : Option Val → List Val → Option Val
  | cur, [] => cur
  | cur, x :: xs => maxAddList (maxAdd cur x) xs

end

mutual

/-- `minAggregator.Add`. -/
def minAdd : Option Val → Val → Option Val
  | cur, .null => cur
  | cur, .arr xs => minAddList cur xs
  | none, v => some v
  | some c, v => if compareLess v c then some v else some c

/-- Slice flattening of `minAggregator.Add`. -/
def minAddList : Option Val → List Val → Option Val
  | cur, [] => cur
  | cur, x :: xs => minAddList (minAdd cur x) xs

end

mutual

/-- `sumAggregator.Add`: skip nil, flatten slices, add numeric
contributions.  CAVEAT: Go accumulates `sum += f` in `float64`, whose
rounding makes the addition non-associative and the accumulated value
dependent on arrival order (e.g. `1e16 + 1 + 1`); the `ℚ` model is
exact, so its algebraic laws (commutativity/associativity of `+`) must
not be transported to the program — no theorem in this file claims
order-independence for `SUM`. -/
def sumAdd : ℚ → Val → ℚ
  | s, .null => s
  | s, .arr xs => sumAddList s xs
  | s, v =>
    match toFloat64 v with
    | some f => s + f
    | none => s

/-- Slice flattening of `sumAggregator.Add`. -/
def sumAddList : ℚ → List Val → ℚ
  | s, [] => s
  | s, x :: xs => sumAddList (sumAdd s x) xs

end

mutual

/-- `avgAggregator.Add`: running sum and count of the numeric
contributions.  CAVEAT: like `sumAdd`, the running sum is a rounding Go
`float64` modelled by an exact `ℚ`, so the model's order-independence
of the sum component does not hold of the program — no theorem in this
file claims order-independence for `AVG`. -/
def avgAdd : ℚ × Nat → Val → ℚ × Nat
  | sc, .null => sc
  | sc, .arr xs => avgAddList sc xs
  | (s, c), v =>
    match toFloat64 v with
    | some f => (s + f, c + 1)
    | none => (s, c)

/-- Slice flattening of `avgAggregator.Add`. -/
def avgAddList : ℚ × Nat → List Val → ℚ × Nat
  | sc, [] => sc
  | sc, x :: xs => avgAddList (avgAdd sc x) xs

end

/-- `countAggregator.Add`: nil skipped, a slice counts its length (one
level, no recursion), anything else counts one. -/
def countAdd (c : Nat) (v : Val) : Nat :=
  match v with
  | .null => c
  | .arr xs => c + xs.length
  | _ => c + 1

/-- One accumulator (the union of the five aggregator structs). -/
structure AggState where
  kind : AggKind
  mval : Option Val := none
  sum : ℚ := 0
  count : Nat := 0
deriving DecidableEq

/-- `fieldAggregator.Add` dispatch. -/
def AggState.add (a : AggState) (v : Val) : AggState :=
  match a.kind with
  | .max => { a with mval := maxAdd a.mval v }
  | .min => { a with mval := minAdd a.mval v }
  | .avg =>
    let r := avgAdd (a.sum, a.count) v
    { a with sum := r.1, count := r.2 }
  | .count => { a with count := countAdd a.count v }
  | .sum => { a with sum := sumAdd a.sum v }

/-- `fieldAggregator.Result` dispatch (`MAX`/`MIN` before any
contribution return the nil interface; `COUNT` returns a Go `int`,
modelled as a number). -/
def AggState.result (a : AggState) : Val :=
  match a.kind with
  | .max => a.mval.getD .null
  | .min => a.mval.getD .null
  | .avg => if a.count = 0 then .num 0 else .num (a.sum / (a.count : ℚ))
  | .count => .num (a.count : ℚ)
  | .sum => .num a.sum

/-- `JSONRow.Get` (revision handling `OrderedMap` rows): mapping rows
extract directly, any other row value is wrapped under the key
`"wrapped"`. -/
def rowGet (row : Val) (path : String) : Option Val :=
  match row with
  | .obj fs => Query.Extract fs path
  | v => Query.Extract [("wrapped", v)] path

/-- Output key of a field (`Alias`, defaulting to `Path`). -/
def projFieldKey (f : Field) : String :=
  if f.Alias = "" then f.Path else f.Alias

/-- Field extraction of `projectIterator.Next`: a failed `Get` yields
nil, never row suppression. -/
def projExtract (row : Val) (f : Field) : Val :=
  (rowGet row f.Path).getD .null

/-- Length of a slice value (`nil` for non-slices). -/
def arrLen? : Val → Option Nat
  | .arr xs => some xs.length
  | _ => none

/-- Element selection during unwinding: slice fields take their `i`-th
element, scalar fields repeat. -/
def elemAt (v : Val) (i : Nat) : Val :=
  match v with
  | .arr xs => xs.getD i .null
  | v => v

/-- `projectIterator.Next` on one source row.  The Go loop state
(`allArraysLength`, `consistentArrays`, `hasArrays`) is equivalent to:
the slice-length list is nonempty, every entry equals the first, and
the first is positive. -/
def projectRow (fields : List Field) (row : Val) : List Val :=
  let fVals := fields.map fun f => (projFieldKey f, projExtract row f)
  let lens := fVals.filterMap fun kv => arrLen? kv.2
  let hasArrays := !lens.isEmpty
  let consistent := lens.all fun l => l == lens.headD 0
  let n := lens.headD 0
  if hasArrays && consistent && decide (0 < n) then
    (List.range n).map fun i => Val.obj (fVals.map fun kv => (kv.1, elemAt kv.2 i))
  else [Val.obj fVals]

/-- Group key of a row (`aggregateIterator.init`): empty for global
aggregation, else the `%v` form of the extracted group-by value, with
extraction failure mapped to the literal string `"null"`. -/
def keyOf (gby : String) (row : Val) : String :=
  if gby = "" then ""
  else
    match rowGet row gby with
    | some v => formatVal v
    | none => "null"

/-- `newGroupState`: one accumulator per aggregate field (non-aggregate
fields carry no accumulator). -/
def newGroupState (fields : List Field) : List (Option AggState) :=
  fields.map fun f =>
    if f.Aggregate ≠ "" then some { kind := createAggregator f.Aggregate } else none

/-- `groupState.update`: each aggregate field extracts its path and, on
success, feeds the accumulator (the accumulator option is `some` exactly
for aggregate fields, by construction in `newGroupState`). -/
def groupUpdate : List Field → List (Option AggState) → Val → List (Option AggState)
  | [], _, _ => []
  | _ :: _, [], _ => []
  | f :: fs, a :: rest, row =>
    (match a with
     | some a0 =>
       (match rowGet row f.Path with
        | some v => some (a0.add v)
        | none => some a0)
     | none => none) :: groupUpdate fs rest row

/-- `groupState.finalize`: aggregate fields emit their result;
non-aggregate fields emit the group key string when their path is the
group-by path, nil otherwise; output keys follow declaration order with
alias defaulting. -/
def groupFinalize : List Field → List (Option AggState) → String → String → List (String × Val)
  | [], _, _, _ => []
  | _ :: _, [], _, _ => []
  | f :: fs, a :: rest, gk, gbf =>
    (projFieldKey f,
      match a with
      | some st => st.result
      | none => if f.Path = gbf then .str gk else .null)
      :: groupFinalize fs rest gk gbf

/-- Update the accumulator set of an existing group key. -/
def updateGroups (fields : List Field) :
    List (String × List (Option AggState)) → String → Val → List (String × List (Option AggState))
  | [], _, _ => []
  | (k', st) :: rest, k, row =>
    if k' = k then (k', groupUpdate fields st row) :: rest
    else (k', st) :: updateGroups fields rest k row

/-- One row of the drain loop of `aggregateIterator.init`: look up the
group (creating it lazily in first-seen position) and update it. -/
def aggStep (fields : List Field) (gby : String)
    (groups : List (String × List (Option AggState))) (row : Val) :
    List (String × List (Option AggState)) :=
  let k := keyOf gby row
  if (groups.lookup k).isSome then updateGroups fields groups k row
  else groups ++ [(k, groupUpdate fields (newGroupState fields) row)]

/-- Does any field carry an aggregate function? -/
def hasAggregate (fields : List Field) : Bool :=
  fields.any fun f => f.Aggregate ≠ ""

/-- `aggregateIterator.init` on a fully drained input: group, then
either the degenerate empty-input row (global aggregation with at least
one aggregate field) or one row per group key in `sort.Strings`
order. -/
def aggRun (gby : String) (fields : List Field) (rows : List Val) : List Val :=
  let groups := rows.foldl (aggStep fields gby) []
  if rows.isEmpty ∧ gby = "" ∧ fields ≠ [] ∧ hasAggregate fields then
    [Val.obj (groupFinalize fields (newGroupState fields) "" "")]
  else
    (sortStrings (groups.map (·.1))).map fun k =>
      Val.obj (groupFinalize fields ((groups.lookup k).getD (newGroupState fields)) k gby)

/-- Plan-node tree (`ScanNode` / `FilterNode` / `ProjectNode` /
`AggregateNode`); every scan reads the root table. -/
inductive PNode where
  | scan
  | filter (e : Expression) (input : PNode)
  | project (fields : List Field) (input : PNode)
  | aggregate (gby : String) (fields : List Field) (input : PNode)

/-- `planner.CreatePlan`: resolve the source (named tables also bind the
root table), wrap a present filter, then aggregate if grouped or any
field aggregates, else project if fields exist, else pass through. -/
def CreatePlan : SelectQuery → PNode
  | .mk fields _fromTable fromQuery filter groupBy =>
    let input :=
      match fromQuery with
      | some sub => CreatePlan sub
      | none => PNode.scan
    let current :=
      match filter with
      | some e => PNode.filter e input
      | none => input
    if groupBy ≠ "" ∨ hasAggregate fields then .aggregate groupBy fields current
    else if fields ≠ [] then .project fields current
    else current

/-- `filterIterator.Next` keeps mapping rows whose record passes the
expression; rows whose primitive is not mapping-shaped are skipped. -/
def filterKeep (e : Expression) (row : Val) : Bool :=
  match row with
  | .obj fs => e.Evaluate fs
  | _ => false

/-- Pull a plan to exhaustion over the root-table rows (the executor's
loop, ignoring iterator errors). -/
def runRows : PNode → List Val → List Val
  | .scan, rows => rows
  | .filter e p, rows => (runRows p rows).filter (filterKeep e)
  | .project fs p, rows => (runRows p rows).flatMap (projectRow fs)
  | .aggregate gby fs p, rows => aggRun gby fs (runRows p rows)

/-- A source with its terminal iterator error (rows produced before the
failure, then `Next` returns false and `Error()` reports). -/
abbrev Source := List Val × Option String

/-- Pull a plan with error propagation: `filterIterator.Error` and
`projectIterator.Error` return the source error unchanged;
`aggregateIterator` drains its input inside `init`, whose error makes
`Next` return false with no rows while `Error()` always returns nil. -/
def runRowsE : PNode → Source → Source
  | .scan, s => s
  | .filter e p, s =>
    let r := runRowsE p s
    (r.1.filter (filterKeep e), r.2)
  | .project fs p, s =>
    let r := runRowsE p s
    (r.1.flatMap (projectRow fs), r.2)
  | .aggregate gby fs p, s =>
    let r := runRowsE p s
    match r.2 with
    | some _ => ([], none)
    | none => (aggRun gby fs r.1, none)

end JSL.Plan

namespace JSL

open JSL.Query JSL.Sql JSL.Plan

/-- Is a value a mapping or a sequence? -/
def isCollection : Val → Bool
  | .obj _ => true
  | .arr _ => true
  | _ => false

/-- The lowercase ASCII letters (identifier alphabet of the
simple-condition agreement theorem). -/
def lowerChars : List Char :=
  ['a','b','c','d','e','f','g','h','i','j','k','l','m','n','o','p','q','r','s','t','u','v','w','x','y','z']

/-- A kind-restricted accumulator: the `COUNT` kind only.  `COUNT` is
the one aggregator whose Go accumulator is exact (an `int` counter), so
it is the only kind for which order-independence can be claimed of the
program: `MAX`/`MIN` compare non-transitively across mixed types, and
`SUM`/`AVG` accumulate in rounding `float64` arithmetic, which is not
associative (the model's exact `ℚ` sum must not be used to transport
order-independence to the program). -/
def kindOk (a : Option AggState) : Prop :=
  ∀ a0, a = some a0 → a0.kind = .count

mutual

theorem matchValue_any (f : Filter) :
    ∀ v, matchValue f v = (containedScalars v).any fun s => scalarMatch f s
  | .null => by simp [matchValue, containedScalars, List.any]
  | .bool b => by simp [matchValue, containedScalars, List.any]
  | .num q => by simp [matchValue, containedScalars, List.any]
  | .str s => by simp [matchValue, containedScalars, List.any]
  | .arr xs => by
    rw [matchValue, containedScalars]
    exact matchValueList_any f xs
  | .obj fs => by
    rw [matchValue, containedScalars]
    exact matchValueObj_any f fs

theorem matchValueList_any (f : Filter) :
    ∀ xs, matchValueList f xs = (containedScalarsList xs).any fun s => scalarMatch f s
  | [] => rfl
  | x :: rest => by
    rw [matchValueList, containedScalarsList, List.any_append,
      matchValue_any f x, matchValueList_any f rest]

theorem matchValueObj_any (f : Filter) :
    ∀ fs, matchValueObj f fs = (containedScalarsObj fs).any fun s => scalarMatch f s
  | [] => rfl
  | (k, v) :: rest => by
    rw [matchValueObj, containedScalarsObj, List.any_append,
      matchValue_any f v, matchValueObj_any f rest]

end

/-- Nonzero fuel is enough for an empty part list. -/
theorem extractValue_nil (fuel : Nat) (v : Val) (h : fuel ≠ 0) :
    extractValue fuel v [] = some v := by
  cases fuel with
  | zero => exact absurd rfl h
  | succ n => simp [extractValue]

/-- The extraction fuel is at least four. -/
theorem extractFuel_ge (rec : Rec) (path : String) : 4 ≤ extractFuel rec path := by
  unfold extractFuel
  have h1 : 2 ≤ path.length + 2 := by omega
  have h2 : 2 ≤ valSizeObj rec + 2 := by omega
  have := Nat.mul_le_mul (Nat.mul_le_mul h1 h1) h2
  omega

/-- Root paths extract the whole record. -/
theorem Extract_root (rec : Rec) (path : String) (h : parsePath path = []) :
    Extract rec path = some (.obj rec) := by
  have hf := extractFuel_ge rec path
  unfold Extract
  obtain ⟨n, hn⟩ : ∃ n, extractFuel rec path = n + 1 := ⟨extractFuel rec path - 1, by omega⟩
  rw [hn, extractQ]
  split
  · rfl
  · rw [h, extractValue_nil _ _ (by omega)]

/-- A scalar value matches via the operator dispatch alone. -/
theorem matchValue_scalar (f : Filter) (v : Val) (h : isCollection v = false) :
    matchValue f v = scalarMatch f v := by
  cases v <;> first | rfl | simp [isCollection] at h

/-- C1 counterexample: for the root path `"."` the extracted value is the
whole record — a mapping that contains the scalar `"x"` satisfying the
comparison `= "x"` — yet `Condition.Evaluate` returns false, because the
value carries the defined type `parser.Record`, which the collection
cases of `matchValue` do not match, so it is compared as a scalar
`%v` string. -/
theorem C1_counterexample_root_path :
    Extract [("a", Val.str "x")] "." = some (.obj [("a", Val.str "x")])
    ∧ isCollection (Val.obj [("a", Val.str "x")]) = true
    ∧ ((containedScalars (Val.obj [("a", Val.str "x")])).any fun s =>
        scalarMatch ⟨".", "=", .str "x"⟩ s) = true
    ∧ (Expression.cond ⟨".", "=", .str "x"⟩).Evaluate [("a", Val.str "x")] = false := by
  refine ⟨by decide, rfl, by decide, by decide⟩

/-- C1 (amended to non-root field paths): if extraction succeeds and the
extracted value is a mapping or a sequence, `Condition.Evaluate` is true
iff some recursively contained scalar satisfies the comparison; in
particular `Condition("tags","=","x")` holds on `{"tags":["x","y"]}` and
fails on `{"tags":["y","z"]}`. -/
theorem C1_condition_existential :
    (∀ (f : Filter) (rec : Rec) (v : Val),
      parsePath f.field ≠ [] →
      Extract rec f.field = some v →
      isCollection v = true →
      ((Expression.cond f).Evaluate rec = true ↔
        ∃ s ∈ containedScalars v, scalarMatch f s = true))
    ∧ (Expression.cond ⟨"tags", "=", .str "x"⟩).Evaluate
        [("tags", .arr [.str "x", .str "y"])] = true
    ∧ (Expression.cond ⟨"tags", "=", .str "x"⟩).Evaluate
        [("tags", .arr [.str "y", .str "z"])] = false := by
  refine ⟨?_, by decide, by decide⟩
  intro f rec v hpath hex _hcoll
  show Filter.Match f rec = true ↔ _
  rw [Filter.Match, hex]
  simp only [hpath, matchValue_any, List.any_eq_true, if_false, eq_self_iff_true,
    iff_self, if_neg, not_false_iff]

/-- C1 witness: the amended theorem applied to the `tags` example. -/
theorem C1_condition_existential_witness :
    (Expression.cond ⟨"tags", "=", .str "x"⟩).Evaluate
        [("tags", .arr [.str "x", .str "y"])] = true ↔
      ∃ s ∈ containedScalars (.arr [.str "x", .str "y"]),
        scalarMatch ⟨"tags", "=", .str "x"⟩ s = true :=
  C1_condition_existential.1 ⟨"tags", "=", .str "x"⟩
    [("tags", .arr [.str "x", .str "y"])] (.arr [.str "x", .str "y"])
    (by decide) (by decide) (by decide)

/-- The key/value pairs a `projectIterator` computes for one source row
(in field declaration order). -/
def projFieldVals (fields : List Field) (row : Val) : List (String × Val) :=
  fields.map fun f => (projFieldKey f, projExtract row f)

/-- The lengths of the sequence-valued extractions, in field order. -/
def projSeqLens (fields : List Field) (row : Val) : List Nat :=
  (projFieldVals fields row).filterMap fun kv => arrLen? kv.2

/-- C2: per input row, if some extraction is a sequence and all
sequence-valued extractions share one nonzero length `N`, the project
node emits the `N` zipped rows (sequence fields indexed, scalar fields
repeated, keys in declaration order); otherwise — no sequences, a zero
length, or inconsistent lengths — exactly one verbatim row is emitted;
failed extractions appear as null and never suppress the row. -/
theorem C2_project_unwind :
    (∀ (fields : List Field) (row : Val) (N : Nat), 0 < N →
      projSeqLens fields row ≠ [] →
      (∀ l ∈ projSeqLens fields row, l = N) →
      projectRow fields row =
        (List.range N).map fun i =>
          Val.obj ((projFieldVals fields row).map fun kv => (kv.1, elemAt kv.2 i)))
    ∧ (∀ (fields : List Field) (row : Val),
        (projSeqLens fields row = [] ∨ 0 ∈ projSeqLens fields row ∨
          ∃ l ∈ projSeqLens fields row, ∃ m ∈ projSeqLens fields row, l ≠ m) →
        projectRow fields row = [Val.obj (projFieldVals fields row)]) := by
  constructor
  · intro fields row N hN hne hall
    have hhead : (projSeqLens fields row).headD 0 = N := by
      cases hL : projSeqLens fields row with
      | nil => exact absurd hL hne
      | cons l₀ rest =>
        simp only [List.headD_cons]
        exact hall l₀ (hL ▸ List.mem_cons_self l₀ rest)
    have hemp : (projSeqLens fields row).isEmpty = false := by
      cases hL : projSeqLens fields row with
      | nil => exact absurd hL hne
      | cons l₀ rest => rfl
    have hallb :
        ((projSeqLens fields row).all fun l => l == (projSeqLens fields row).headD 0) = true := by
      rw [List.all_eq_true]
      intro l hl
      rw [beq_iff_eq, hhead]
      exact hall l hl
    show (if ((!(projSeqLens fields row).isEmpty) &&
         ((projSeqLens fields row).all fun l => l == (projSeqLens fields row).headD 0) &&
         decide (0 < (projSeqLens fields row).headD 0)) = true
        then (List.range ((projSeqLens fields row).headD 0)).map fun i =>
          Val.obj ((projFieldVals fields row).map fun kv => (kv.1, elemAt kv.2 i))
        else [Val.obj (projFieldVals fields row)]) = _
    rw [hemp, hallb, hhead, decide_eq_true hN]
    rfl
  · intro fields row hdisj
    have hcond :
        ((!(projSeqLens fields row).isEmpty) &&
          ((projSeqLens fields row).all fun l => l == (projSeqLens fields row).headD 0) &&
          decide (0 < (projSeqLens fields row).headD 0)) = false := by
      rcases hdisj with h | h | ⟨l, hl, m, hm, hlm⟩
      · rw [h]; rfl
      · cases hL : projSeqLens fields row with
        | nil => rfl
        | cons l₀ rest =>
          rw [hL] at h
          by_cases hallb : ((l₀ :: rest).all fun l => l == (l₀ :: rest).headD 0) = true
          · have hl₀ : l₀ = 0 := by
              have h2 := (List.all_eq_true.mp hallb) 0 h
              simp only [List.headD_cons, beq_iff_eq] at h2
              omega
            simp [hl₀, hallb]
          · rw [Bool.eq_false_iff.mpr hallb]
            simp
      · by_cases hallb :
          ((projSeqLens fields row).all fun l => l == (projSeqLens fields row).headD 0) = true
        · exfalso
          have hl' := (List.all_eq_true.mp hallb) l hl
          have hm' := (List.all_eq_true.mp hallb) m hm
          rw [beq_iff_eq] at hl' hm'
          exact hlm (hl'.trans hm'.symm)
        · rw [Bool.eq_false_iff.mpr hallb]
          simp
    show (if ((!(projSeqLens fields row).isEmpty) &&
         ((projSeqLens fields row).all fun l => l == (projSeqLens fields row).headD 0) &&
         decide (0 < (projSeqLens fields row).headD 0)) = true
        then (List.range ((projSeqLens fields row).headD 0)).map fun i =>
          Val.obj ((projFieldVals fields row).map fun kv => (kv.1, elemAt kv.2 i))
        else [Val.obj (projFieldVals fields row)]) = _
    rw [hcond]
    rfl

/-- C2 witness: the zip example (two equal parallel arrays give two
rows) and the mismatch example (fallback to one verbatim row), both by
the theorem. -/
theorem C2_project_unwind_witness :
    projectRow [⟨"xs", "xs", ""⟩, ⟨"ys", "ys", ""⟩]
        (.obj [("xs", .arr [.num 1, .num 2]), ("ys", .arr [.num 10, .num 20])]) =
      [.obj [("xs", .num 1), ("ys", .num 10)], .obj [("xs", .num 2), ("ys", .num 20)]]
    ∧ projectRow [⟨"xs", "xs", ""⟩, ⟨"ys", "ys", ""⟩]
        (.obj [("xs", .arr [.num 1, .num 2]),
          ("ys", .arr [.num 10, .num 20, .num 30])]) =
      [.obj [("xs", .arr [.num 1, .num 2]), ("ys", .arr [.num 10, .num 20, .num 30])]] := by
  constructor
  · have h := C2_project_unwind.1 [⟨"xs", "xs", ""⟩, ⟨"ys", "ys", ""⟩]
      (.obj [("xs", .arr [.num 1, .num 2]), ("ys", .arr [.num 10, .num 20])])
      2 (by decide) (by decide) (by decide)
    rw [h]
    decide
  · have h := C2_project_unwind.2 [⟨"xs", "xs", ""⟩, ⟨"ys", "ys", ""⟩]
      (.obj [("xs", .arr [.num 1, .num 2]), ("ys", .arr [.num 10, .num 20, .num 30])])
      (by right; right; exact ⟨2, by decide, 3, by decide, by decide⟩)
    rw [h]
    decide

/-- C5: on empty input a global aggregation with at least one aggregate
field emits exactly one row built from fresh zero-contribution
accumulators (`COUNT` gives 0, `AVG` gives 0.0); with no aggregate field
the empty input gives an empty result. -/
theorem C5_aggregate_empty_input :
    (∀ fields : List Field, hasAggregate fields = true →
      aggRun "" fields [] = [Val.obj (groupFinalize fields (newGroupState fields) "" "")])
    ∧ (∀ (gby : String) (fields : List Field), hasAggregate fields = false →
        aggRun gby fields [] = [])
    ∧ aggRun "" [⟨"x", "COUNT_x", "COUNT"⟩] [] = [.obj [("COUNT_x", .num 0)]]
    ∧ aggRun "" [⟨"x", "AVG_x", "AVG"⟩] [] = [.obj [("AVG_x", .num 0)]] := by
  refine ⟨?_, ?_, by decide, by decide⟩
  · intro fields hagg
    have hne : fields ≠ [] := by
      intro h
      rw [h] at hagg
      exact absurd hagg (by decide)
    rw [aggRun]
    simp [hagg, hne]
  · intro gby fields hagg
    rw [aggRun]
    have : (fields ≠ [] ∧ hasAggregate fields = true) → False := fun h => by
      rw [hagg] at h; exact absurd h.2 (by decide)
    simp only [List.foldl_nil, List.isEmpty_nil, hagg]
    split
    · next h => exact absurd h.2.2.2 (by simp [hagg])
    · rfl

/-- C5 witness: the theorem applied to a one-aggregate field list and to
a no-aggregate field list. -/
theorem C5_aggregate_empty_input_witness :
    aggRun "" [⟨"x", "COUNT_x", "COUNT"⟩] [] =
      [Val.obj (groupFinalize [⟨"x", "COUNT_x", "COUNT"⟩]
        (newGroupState [⟨"x", "COUNT_x", "COUNT"⟩]) "" "")]
    ∧ aggRun "cat" [⟨"x", "x", ""⟩] [] = [] :=
  ⟨C5_aggregate_empty_input.1 [⟨"x", "COUNT_x", "COUNT"⟩] (by decide),
   C5_aggregate_empty_input.2.1 "cat" [⟨"x", "x", ""⟩] (by decide)⟩

/-- C7 (code bug): `filterIterator.Error` and `projectIterator.Error`
return the source error unchanged, but `aggregateIterator.Error` always
returns nil — an error raised while `init` drains the source is
swallowed (the code's own comment says "TODO: persist error"), so the
executor's post-loop check observes no error. -/
theorem C7_aggregate_swallows_error :
    (∀ (e : Expression) (src : Plan.Source), (runRowsE (.filter e .scan) src).2 = src.2)
    ∧ (∀ (fs : List Field) (src : Plan.Source), (runRowsE (.project fs .scan) src).2 = src.2)
    ∧ (runRowsE (.aggregate "" [⟨"x", "COUNT_x", "COUNT"⟩] .scan)
        ([], some "io error")).2 = none
    ∧ (runRowsE (.aggregate "" [⟨"x", "COUNT_x", "COUNT"⟩] .scan)
        ([], some "io error")).2 ≠ some "io error" := by
  exact ⟨fun e src => rfl, fun fs src => rfl, rfl, by decide⟩

/-- C6 counterexample: a query with the unknown aggregate name `FOO`
parses successfully (no `ParseError`), producing a field whose
`Aggregate` is `FOO`, and `createAggregator` silently substitutes the
COUNT accumulator for it. -/
theorem C6_counterexample_unknown_aggregate :
    (Sql.ParseQuery "SELECT FOO(x)").map SelectQuery.fields =
      some [⟨"x", "FOO_x", "FOO"⟩]
    ∧ Plan.createAggregator "FOO" = .count := by
  exact ⟨by decide, by decide⟩

/-- C6 (amended): an unrecognised aggregate function name is accepted by
the grammar, recorded verbatim in the field's `Aggregate`, and every
name whose upper-casing is none of MAX, MIN, AVG, COUNT, SUM is mapped
to the COUNT accumulator by `createAggregator` at execution time. -/
theorem C6_unknown_aggregate_accepted :
    ((Sql.ParseQuery "SELECT FOO(x)").map SelectQuery.fields =
      some [⟨"x", "FOO_x", "FOO"⟩])
    ∧ (∀ name : String,
        goToUpper name ∉ (["MAX", "MIN", "AVG", "COUNT", "SUM"] : List String) →
        Plan.createAggregator name = .count) := by
  refine ⟨by decide, ?_⟩
  intro name h
  simp only [List.mem_cons, List.not_mem_nil, or_false, not_or] at h
  obtain ⟨h1, h2, h3, h4, h5⟩ := h
  unfold Plan.createAggregator
  split
  · next heq => exact absurd heq h1
  · next heq => exact absurd heq h2
  · next heq => exact absurd heq h3
  · next heq => exact absurd heq h4
  · next heq => exact absurd heq h5
  · rfl

/-- C6 witness: the amended theorem applied to the name `FOO`. -/
theorem C6_unknown_aggregate_accepted_witness :
    Plan.createAggregator "FOO" = .count :=
  C6_unknown_aggregate_accepted.2 "FOO" (by decide)

/-- C8 counterexample: `SELECT *` parses to one field with path `*`, the
planner wraps the scan in a Project node on that field, and execution
nests each record under the key `*` instead of passing it through. -/
theorem C8_counterexample_select_star :
    (Sql.ParseQuery "SELECT *").map SelectQuery.fields = some [⟨"*", "*", ""⟩]
    ∧ (match Sql.ParseQuery "SELECT *" with
       | some q => runRows (CreatePlan q) [.obj [("a", .num 1)]]
       | none => []) = [.obj [("*", .obj [("a", .num 1)])]]
    ∧ [Val.obj [("*", .obj [("a", .num 1)])]] ≠ [Val.obj [("a", .num 1)]] := by
  exact ⟨by decide, by decide, by decide⟩

/-- C8 (amended): the pass-through plan exists exactly for an IR with no
fields: with no filter, no group-by and no subquery the plan is a bare
scan and the output equals the input rows in order; `SELECT *` however
lowers to the field list `[*]` and is wrapped in a Project node. -/
theorem C8_no_fields_passthrough (q : SelectQuery) (rows : List Val)
    (hf : q.fields = []) (hfil : q.filter = none) (hg : q.groupBy = "")
    (hq : q.fromQuery = none) :
    runRows (CreatePlan q) rows = rows := by
  obtain ⟨fields, fromTable, fromQuery, filter, groupBy⟩ := q
  simp only [SelectQuery.fields] at hf
  simp only [SelectQuery.filter] at hfil
  simp only [SelectQuery.groupBy] at hg
  simp only [SelectQuery.fromQuery] at hq
  subst hf hfil hg hq
  rw [CreatePlan]
  simp [hasAggregate, runRows]

/-- C8 witness: the amended theorem applied to the empty IR and a
concrete row list. -/
theorem C8_no_fields_passthrough_witness :
    runRows (CreatePlan (.mk [] "" none none "")) [.obj [("a", .num 1)], .null] =
      [.obj [("a", .num 1)], .null] :=
  C8_no_fields_passthrough (.mk [] "" none none "")
    [.obj [("a", .num 1)], .null] rfl rfl rfl rfl

/-- C10: for the ordering operators the WHERE filter evaluates to false
whenever either side fails the float conversion (numeric values and
numeric strings convert, nothing else) — no string-ordering fallback —
whereas the plan-side comparison used by MAX/MIN falls back to Go
string comparison of the `%v` forms, e.g. `"b" > "a"` is true for the
accumulator comparison and false for the filter. -/
theorem C10_ordering_numeric_only :
    (∀ (f : Filter) (rec : Rec) (v : Val),
      f.operator ∈ ([">", ">=", "<", "<="] : List String) →
      Extract rec f.field = some v →
      isCollection v = false →
      Query.toFloat64 v = none ∨ Query.toFloat64 f.value = none →
      (Expression.cond f).Evaluate rec = false)
    ∧ (∀ a b : Val, Plan.toFloat64 a = none ∨ Plan.toFloat64 b = none →
        Plan.compareGreater a b = strLt (formatVal b) (formatVal a))
    ∧ Plan.compareGreater (.str "b") (.str "a") = true
    ∧ Query.compareGreater (.str "b") (.str "a") = false := by
  refine ⟨?_, ?_, by decide, by decide⟩
  · intro f rec v hop hex hscalar hnone
    obtain ⟨ffield, fop, fval⟩ := f
    simp only at hop hnone
    have hgt : Query.compareGreater v fval = false := by
      rw [Query.compareGreater]
      rcases hnone with h | h
      · rw [h]
      · rw [h]
        all_goals cases Query.toFloat64 v <;> rfl
    have hge : Query.compareGreaterEqual v fval = false := by
      rw [Query.compareGreaterEqual]
      rcases hnone with h | h
      · rw [h]
      · rw [h]
        all_goals cases Query.toFloat64 v <;> rfl
    have hlt : Query.compareLess v fval = false := by
      rw [Query.compareLess]
      rcases hnone with h | h
      · rw [h]
      · rw [h]
        all_goals cases Query.toFloat64 v <;> rfl
    have hle : Query.compareLessEqual v fval = false := by
      rw [Query.compareLessEqual]
      rcases hnone with h | h
      · rw [h]
      · rw [h]
        all_goals cases Query.toFloat64 v <;> rfl
    have hsc : scalarMatch ⟨ffield, fop, fval⟩ v = false := by
      simp only [List.mem_cons, List.not_mem_nil, or_false] at hop
      rcases hop with h | h | h | h <;> subst h <;>
        simp [scalarMatch, hgt, hge, hlt, hle]
    show Filter.Match ⟨ffield, fop, fval⟩ rec = false
    rw [Filter.Match, hex]
    show (if parsePath ffield = [] then scalarMatch ⟨ffield, fop, fval⟩ v
      else matchValue ⟨ffield, fop, fval⟩ v) = false
    split
    · exact hsc
    · rw [matchValue_scalar _ v hscalar]
      exact hsc
  · intro a b h
    rw [Plan.compareGreater]
    rcases h with h | h
    · rw [h]
    · rw [h]
      all_goals cases Plan.toFloat64 a <;> rfl

/-- C10 witness: the theorem applied to a record whose field value is a
non-numeric string compared with `>`. -/
theorem C10_ordering_numeric_only_witness :
    (Expression.cond ⟨"x", ">", .str "zz"⟩).Evaluate [("x", .str "abc")] = false :=
  C10_ordering_numeric_only.1 ⟨"x", ">", .str "zz"⟩ [("x", .str "abc")] (.str "abc")
    (by decide) (by decide) (by decide) (by decide)

/-- Unfolding equation: compiling an empty OR list fails. -/
theorem exprToExpression_nil : exprToExpression (.mk .nil) = none := rfl

/-- Unfolding equation for a non-empty OR list. -/
theorem exprToExpression_cons (oc : ASTOrCondition) (rest : ASTOrCondList) :
    exprToExpression (.mk (.cons oc rest)) =
      orListFold (orCondToExpression oc) rest := rfl

/-- Unfolding equation: the empty fold returns the accumulator. -/
theorem orListFold_nil (acc : Option Expression) : orListFold acc .nil = acc := rfl

/-- Unfolding equation for one `OR` fold step. -/
theorem orListFold_cons (acc : Option Expression) (oc : ASTOrCondition)
    (rest : ASTOrCondList) :
    orListFold acc (.cons oc rest) =
      match acc, orCondToExpression oc with
      | some l, some r => orListFold (some (.or l r)) rest
      | _, _ => none := rfl

/-- Unfolding equation: compiling an empty AND list fails. -/
theorem orCondToExpression_nil : orCondToExpression (.mk .nil) = none := rfl

/-- Unfolding equation for a non-empty AND list. -/
theorem orCondToExpression_cons (c : ASTCondition) (rest : ASTCondList) :
    orCondToExpression (.mk (.cons c rest)) =
      andListFold (condToExpression c) rest := rfl

/-- Unfolding equation: the empty fold returns the accumulator. -/
theorem andListFold_nil (acc : Option Expression) : andListFold acc .nil = acc := rfl

/-- Unfolding equation for one `AND` fold step. -/
theorem andListFold_cons (acc : Option Expression) (c : ASTCondition)
    (rest : ASTCondList) :
    andListFold acc (.cons c rest) =
      match acc, condToExpression c with
      | some l, some r => andListFold (some (.and l r)) rest
      | _, _ => none := rfl

/-- Unfolding equation: a group compiles by compiling its expression. -/
theorem condToExpression_grouped (e : ASTExpression) :
    condToExpression (.grouped e) = exprToExpression e := rfl

/-- Folding `OR` children from a `none` accumulator can never succeed. -/
theorem orListFold_none (l : ASTOrCondList) : orListFold none l = none := by
  cases l with
  | nil => rfl
  | cons oc rest => rw [orListFold_cons]

/-- Folding `AND` children from a `none` accumulator can never succeed. -/
theorem andListFold_none (l : ASTCondList) : andListFold none l = none := by
  cases l with
  | nil => rfl
  | cons c rest => rw [andListFold_cons]

mutual

theorem exprToExpression_eval :
    ∀ (e : ASTExpression) (g : Expression) (r : Rec),
      exprToExpression e = some g → g.Evaluate r = astExprEval r e
  | .mk .nil, g, r, h => by
    rw [exprToExpression_nil] at h
    exact Option.noConfusion h
  | .mk (.cons oc rest), g, r, h => by
    rw [exprToExpression_cons] at h
    rcases hoc : orCondToExpression oc with _ | b
    · rw [hoc, orListFold_none] at h
      exact Option.noConfusion h
    · rw [hoc] at h
      have h1 := orListFold_eval rest b g r h
      have h2 := orCondToExpression_eval oc b r hoc
      show g.Evaluate r = (astOrCondEval r oc || astOrsEval r rest)
      rw [h1, h2]

theorem orListFold_eval :
    ∀ (l : ASTOrCondList) (a g : Expression) (r : Rec),
      orListFold (some a) l = some g →
      g.Evaluate r = (a.Evaluate r || astOrsEval r l)
  | .nil, a, g, r, h => by
    rw [orListFold_nil] at h
    cases h
    show a.Evaluate r = (a.Evaluate r || false)
    rw [Bool.or_false]
  | .cons oc rest, a, g, r, h => by
    rw [orListFold_cons] at h
    rcases hoc : orCondToExpression oc with _ | b
    · rw [hoc] at h
      exact Option.noConfusion h
    · rw [hoc] at h
      have h' : orListFold (some (.or a b)) rest = some g := h
      have h1 := orListFold_eval rest (.or a b) g r h'
      have h2 := orCondToExpression_eval oc b r hoc
      show g.Evaluate r = (a.Evaluate r || (astOrCondEval r oc || astOrsEval r rest))
      rw [h1]
      show (a.Evaluate r || b.Evaluate r || astOrsEval r rest) =
        (a.Evaluate r || (astOrCondEval r oc || astOrsEval r rest))
      rw [h2, Bool.or_assoc]

theorem orCondToExpression_eval :
    ∀ (oc : ASTOrCondition) (g : Expression) (r : Rec),
      orCondToExpression oc = some g → g.Evaluate r = astOrCondEval r oc
  | .mk .nil, g, r, h => by
    rw [orCondToExpression_nil] at h
    exact Option.noConfusion h
  | .mk (.cons c rest), g, r, h => by
    rw [orCondToExpression_cons] at h
    rcases hc : condToExpression c with _ | b
    · rw [hc, andListFold_none] at h
      exact Option.noConfusion h
    · rw [hc] at h
      have h1 := andListFold_eval rest b g r h
      have h2 := condToExpression_eval c b r hc
      show g.Evaluate r = (astCondEval r c && astAndsEval r rest)
      rw [h1, h2]

theorem andListFold_eval :
    ∀ (l : ASTCondList) (a g : Expression) (r : Rec),
      andListFold (some a) l = some g →
      g.Evaluate r = (a.Evaluate r && astAndsEval r l)
  | .nil, a, g, r, h => by
    rw [andListFold_nil] at h
    cases h
    show a.Evaluate r = (a.Evaluate r && true)
    rw [Bool.and_true]
  | .cons c rest, a, g, r, h => by
    rw [andListFold_cons] at h
    rcases hc : condToExpression c with _ | b
    · rw [hc] at h
      exact Option.noConfusion h
    · rw [hc] at h
      have h' : andListFold (some (.and a b)) rest = some g := h
      have h1 := andListFold_eval rest (.and a b) g r h'
      have h2 := condToExpression_eval c b r hc
      show g.Evaluate r = (a.Evaluate r && (astCondEval r c && astAndsEval r rest))
      rw [h1]
      show (a.Evaluate r && b.Evaluate r && astAndsEval r rest) =
        (a.Evaluate r && (astCondEval r c && astAndsEval r rest))
      rw [h2, Bool.and_assoc]

theorem condToExpression_eval :
    ∀ (c : ASTCondition) (g : Expression) (r : Rec),
      condToExpression c = some g → g.Evaluate r = astCondEval r c
  | .grouped e, g, r, h => by
    rw [condToExpression_grouped] at h
    exact exprToExpression_eval e g r h
  | .simple (.mk operand op value), g, r, h => by
    cases value with
    | none =>
      have hg := Option.some.inj h
      subst hg
      rfl
    | some v =>
      have hg := Option.some.inj h
      subst hg
      rfl

end

/-- C3: the compiled WHERE tree evaluates exactly as the grammar's
OR-of-AND reading (AND binds tighter than OR, parenthesised groups
re-enter the same semantics, for arbitrary nesting); in particular
`a=1 OR b=2 AND c=3` and `a=1 OR (b=2 AND c=3)` compile to trees that
evaluate identically on every record. -/
theorem C3_and_binds_tighter :
    (∀ (e : ASTExpression) (g : Expression) (r : Rec),
      exprToExpression e = some g → g.Evaluate r = astExprEval r e)
    ∧ (Sql.ParseWhereText "a=1 OR b=2 AND c=3").isSome = true
    ∧ ∀ r : Rec,
        (Sql.ParseWhereText "a=1 OR b=2 AND c=3").map (fun g => g.Evaluate r) =
        (Sql.ParseWhereText "a=1 OR (b=2 AND c=3)").map (fun g => g.Evaluate r) := by
  refine ⟨exprToExpression_eval, by decide, ?_⟩
  intro r
  have h : Sql.ParseWhereText "a=1 OR b=2 AND c=3" =
      Sql.ParseWhereText "a=1 OR (b=2 AND c=3)" := by decide
  rw [h]

/-- C3 witness: the refinement applied to the one-condition expression
`a=1` on a concrete record. -/
theorem C3_and_binds_tighter_witness :
    (Expression.cond ⟨"a", "=", .num 1⟩).Evaluate [("a", .num 1)] =
      astExprEval [("a", .num 1)]
        (.mk (.cons (.mk (.cons (.simple (.mk (.value ⟨["a"]⟩) (some "=")
          (some (.lit (.num 1))))) .nil)) .nil)) :=
  C3_and_binds_tighter.1
    (.mk (.cons (.mk (.cons (.simple (.mk (.value ⟨["a"]⟩) (some "=")
      (some (.lit (.num 1))))) .nil)) .nil))
    (.cond ⟨"a", "=", .num 1⟩) [("a", .num 1)] (by decide)

/-- Character facts about the lowercase letters. -/
theorem lowerChars_spec : ∀ c ∈ lowerChars,
    isWordChar c = true ∧ c.isAlpha = true ∧ ('=' == c) = false ∧ isGoSpace c = false := by
  decide

/-- Character facts about the letters plus the `=` sign (the whole
alphabet of a simple condition). -/
theorem lowOrEq_spec : ∀ c ∈ ('=' :: lowerChars),
    (' ' == c.toUpper) = false ∧ isGoSpace c = false ∧
    ('>' == c) = false ∧ ('<' == c) = false ∧ ('!' == c) = false ∧
    ('~' == c) = false ∧ ('(' == c) = false := by
  decide

/-- `findSome?` of an everywhere-`none` function. -/
theorem findSomeNone {α β : Type} (f : α → Option β) :
    ∀ l : List α, (∀ a ∈ l, f a = none) → l.findSome? f = none
  | [], _ => rfl
  | a :: as, h => by
    have h1 : f a = none := h a (List.mem_cons_self a as)
    have h2 := findSomeNone f as fun x hx => h x (List.mem_cons_of_mem a hx)
    simp [List.findSome?_cons, h1, h2]

/-- Unfolding equation of `ciPrefixRest` at two conses. -/
theorem ciPrefixRest_cons_cons (k c : Char) (ks cs : List Char) :
    ciPrefixRest (k :: ks) (c :: cs) =
      if c.toUpper = k then ciPrefixRest ks cs else none := rfl

/-- A case-insensitive keyword prefix of `l ++ t` (`l` lowercase
letters, `t` empty or starting with `=`) either consumes exactly `l`
(and then the keyword is the upper-casing of `l`) or stops inside `l`
(and then the rest starts with a lowercase letter). -/
theorem ciPrefixRest_lower :
    ∀ (ks l t r : List Char),
      (∀ k ∈ ks, '=' ≠ k) →
      (∀ c ∈ l, c ∈ lowerChars) →
      (t = [] ∨ ∃ t', t = '=' :: t') →
      ciPrefixRest ks (l ++ t) = some r →
      (ks = l.map Char.toUpper ∧ r = t) ∨ (∃ c cs, r = c :: cs ∧ c ∈ lowerChars)
  | [], l, t, r, _, hl, _, h => by
    have h' : some (l ++ t) = some r := h
    cases h'
    cases l with
    | nil => exact .inl ⟨rfl, rfl⟩
    | cons c cs => exact .inr ⟨c, cs ++ t, rfl, hl c (List.mem_cons_self c cs)⟩
  | k :: ks, [], t, r, hk, _, ht, h => by
    rcases ht with rfl | ⟨t', rfl⟩
    · exact Option.noConfusion h
    · have h' : ciPrefixRest (k :: ks) ('=' :: t') = some r := h
      rw [ciPrefixRest_cons_cons, if_neg] at h'
      · exact Option.noConfusion h'
      · show ¬('='.toUpper = k)
        intro hh
        exact hk k (List.mem_cons_self k ks) hh
  | k :: ks, c :: cs, t, r, hk, hl, ht, h => by
    have h' : ciPrefixRest (k :: ks) (c :: (cs ++ t)) = some r := h
    rw [ciPrefixRest_cons_cons] at h'
    by_cases hck : c.toUpper = k
    · rw [if_pos hck] at h'
      rcases ciPrefixRest_lower ks cs t r (fun x hx => hk x (List.mem_cons_of_mem k hx))
          (fun x hx => hl x (List.mem_cons_of_mem c hx)) ht h' with ⟨hks, hr⟩ | hres
      · exact .inl ⟨by rw [List.map_cons, ← hck, hks], hr⟩
      · exact .inr hres
    · rw [if_neg hck] at h'
      exact Option.noConfusion h'

/-- The keyword rule fails on a lowercase word that is not itself a
keyword, when the word ends at `=` or at the end of input. -/
theorem matchKw_lower (l t : List Char) (hl : ∀ c ∈ l, c ∈ lowerChars)
    (ht : t = [] ∨ ∃ t', t = '=' :: t')
    (hkw : goToUpper (String.mk l) ∉ kwList) :
    matchKw (l ++ t) = none := by
  have hkchar : ∀ kw ∈ kwList, ∀ k ∈ (kw : String).data, '=' ≠ k := by decide
  rw [matchKw]
  apply findSomeNone
  intro kw hkwmem
  rcases hres : ciPrefixRest kw.data (l ++ t) with _ | rest
  · simp only [hres]
  · rcases ciPrefixRest_lower kw.data l t rest (hkchar kw hkwmem) hl ht hres with
      ⟨hks, hrt⟩ | ⟨c, cs, hr, hc⟩
    · exfalso
      apply hkw
      have h2 : kw = goToUpper (String.mk l) := by
        have h3 : String.mk kw.data = String.mk (l.map Char.toUpper) := by rw [hks]
        exact h3
      rw [← h2]
      exact hkwmem
    · have hw : isWordChar c = true := (lowerChars_spec c hc).1
      simp only [hres, hr, hw]
      simp

/-- Keyword failure for a bare lowercase word. -/
theorem matchKw_lower_nil (l : List Char) (hl : ∀ c ∈ l, c ∈ lowerChars)
    (hkw : goToUpper (String.mk l) ∉ kwList) :
    matchKw l = none := by
  have := matchKw_lower l [] hl (Or.inl rfl) hkw
  rwa [List.append_nil] at this

/-- `takeWhile` over a satisfying block followed by a failing head. -/
theorem takeWhile_all {p : Char → Bool} :
    ∀ l t : List Char, (∀ c ∈ l, p c = true) →
      (t = [] ∨ ∃ c t', t = c :: t' ∧ p c = false) →
      (l ++ t).takeWhile p = l
  | [], t, _, ht => by
    rcases ht with rfl | ⟨c, t', rfl, hpc⟩
    · rfl
    · show List.takeWhile p (c :: t') = []
      simp [List.takeWhile_cons, hpc]
  | a :: l, t, hl, ht => by
    have hpa : p a = true := hl a (List.mem_cons_self a l)
    show List.takeWhile p (a :: (l ++ t)) = a :: l
    rw [List.takeWhile_cons, hpa]
    simp [takeWhile_all l t (fun c hc => hl c (List.mem_cons_of_mem a hc)) ht]

/-- `dropWhile` over a satisfying block followed by a failing head. -/
theorem dropWhile_all {p : Char → Bool} :
    ∀ l t : List Char, (∀ c ∈ l, p c = true) →
      (t = [] ∨ ∃ c t', t = c :: t' ∧ p c = false) →
      (l ++ t).dropWhile p = t
  | [], t, _, ht => by
    rcases ht with rfl | ⟨c, t', rfl, hpc⟩
    · rfl
    · show List.dropWhile p (c :: t') = c :: t'
      simp [List.dropWhile_cons, hpc]
  | a :: l, t, hl, ht => by
    have hpa : p a = true := hl a (List.mem_cons_self a l)
    show List.dropWhile p (a :: (l ++ t)) = t
    rw [List.dropWhile_cons, hpa]
    simp [dropWhile_all l t (fun c hc => hl c (List.mem_cons_of_mem a hc)) ht]

/-- `dropWhile` is the identity when every element fails. -/
theorem dropWhile_none {p : Char → Bool} :
    ∀ l : List Char, (∀ c ∈ l, p c = false) → l.dropWhile p = l
  | [], _ => rfl
  | c :: cs, h => by
    rw [List.dropWhile_cons, h c (List.mem_cons_self c cs)]
    simp

/-- The operator scanner on a leading `=`. -/
theorem scanOp_eqSign (rest : List Char) : scanOp ('=' :: rest) = some ("=", rest) := by
  simp [scanOp, opList, List.findSome?, List.isPrefixOf, String.length]

/-- Lexer step across the `=` sign. -/
theorem lexLoop_eqSign (m : Nat) (vc : List Char) :
    lexLoop (m + 3) ('=' :: vc) true = (lexLoop (m + 2) vc false).map (Tok.opTok "=" :: ·) := by
  rw [lexLoop]
  rw [scanOp_eqSign]
  rfl

/-- The lexer sends `f=v` (lowercase non-keyword identifiers) to
ident / operator / ident. -/
theorem lexLoop_simple (fc vc : List Char) (n : Nat)
    (hf : fc ≠ []) (hv : vc ≠ [])
    (hfl : ∀ c ∈ fc, c ∈ lowerChars) (hvl : ∀ c ∈ vc, c ∈ lowerChars)
    (hfk : goToUpper (String.mk fc) ∉ kwList)
    (hvk : goToUpper (String.mk vc) ∉ kwList) :
    lexLoop (n + 4) (fc ++ '=' :: vc) false =
      some [.ident (String.mk fc), .opTok "=", .ident (String.mk vc)] := by
  obtain ⟨a, fc', rfl⟩ : ∃ a fc', fc = a :: fc' := by
    cases fc with
    | nil => exact absurd rfl hf
    | cons a fc' => exact ⟨a, fc', rfl⟩
  obtain ⟨b, vc', rfl⟩ : ∃ b vc', vc = b :: vc' := by
    cases vc with
    | nil => exact absurd rfl hv
    | cons b vc' => exact ⟨b, vc', rfl⟩
  have hma : matchKw ((a :: fc') ++ '=' :: (b :: vc')) = none :=
    matchKw_lower _ _ hfl (Or.inr ⟨_, rfl⟩) hfk
  have htw : ((a :: fc') ++ '=' :: (b :: vc')).takeWhile isWordChar = a :: fc' :=
    takeWhile_all _ _ (fun c hc => (lowerChars_spec c (hfl c hc)).1)
      (Or.inr ⟨'=', _, rfl, by decide⟩)
  have hdw : ((a :: fc') ++ '=' :: (b :: vc')).dropWhile isWordChar = '=' :: (b :: vc') :=
    dropWhile_all _ _ (fun c hc => (lowerChars_spec c (hfl c hc)).1)
      (Or.inr ⟨'=', _, rfl, by decide⟩)
  have hmb : matchKw (b :: vc') = none := matchKw_lower_nil _ hvl hvk
  have htwb : (b :: vc').takeWhile isWordChar = b :: vc' := by
    have := takeWhile_all (p := isWordChar) (b :: vc') []
      (fun c hc => (lowerChars_spec c (hvl c hc)).1) (Or.inl rfl)
    rwa [List.append_nil] at this
  have hdwb : (b :: vc').dropWhile isWordChar = [] := by
    have := dropWhile_all (p := isWordChar) (b :: vc') []
      (fun c hc => (lowerChars_spec c (hvl c hc)).1) (Or.inl rfl)
    rwa [List.append_nil] at this
  show lexLoop (n + 4) (a :: (fc' ++ '=' :: (b :: vc'))) false = _
  rw [lexLoop]
  rw [← List.cons_append]
  rw [hma]
  have ha : a.isAlpha = true := (lowerChars_spec a (hfl a (List.mem_cons_self a fc'))).2.1
  rw [if_neg Bool.false_ne_true, if_pos (Or.inl ha)]
  rw [htw, hdw]
  rw [lexLoop_eqSign]
  show (((lexLoop (n + 2) (b :: vc') false).map (Tok.opTok "=" :: ·)).map
      (Tok.ident (String.mk (a :: fc')) :: ·)) = _
  rw [lexLoop]
  rw [hmb]
  have hb : b.isAlpha = true := (lowerChars_spec b (hvl b (List.mem_cons_self b vc'))).2.1
  rw [if_neg Bool.false_ne_true, if_pos (Or.inl hb)]
  rw [htwb, hdwb]
  rfl

/-- The full lexer on a simple `f=v` condition text. -/
theorem lexString_simple (fc vc : List Char)
    (hf : fc ≠ []) (hv : vc ≠ [])
    (hfl : ∀ c ∈ fc, c ∈ lowerChars) (hvl : ∀ c ∈ vc, c ∈ lowerChars)
    (hfk : goToUpper (String.mk fc) ∉ kwList)
    (hvk : goToUpper (String.mk vc) ∉ kwList) :
    lexString (String.mk (fc ++ '=' :: vc)) =
      some [.ident (String.mk fc), .opTok "=", .ident (String.mk vc)] := by
  obtain ⟨a, fc', rfl⟩ : ∃ a fc', fc = a :: fc' := by
    cases fc with
    | nil => exact absurd rfl hf
    | cons a fc' => exact ⟨a, fc', rfl⟩
  obtain ⟨b, vc', rfl⟩ : ∃ b vc', vc = b :: vc' := by
    cases vc with
    | nil => exact absurd rfl hv
    | cons b vc' => exact ⟨b, vc', rfl⟩
  rw [lexString]
  have hlen : (String.mk ((a :: fc') ++ '=' :: (b :: vc'))).length + 1 =
      (fc'.length + vc'.length) + 4 := by
    show ((a :: fc') ++ '=' :: (b :: vc')).length + 1 = _
    simp [List.length_append]
    omega
  rw [hlen]
  exact lexLoop_simple _ _ _ hf hv hfl hvl hfk hvk

/-- The grammar-driven WHERE path on a simple `f=v` condition text. -/
theorem ParseWhereText_simple (fc vc : List Char)
    (hf : fc ≠ []) (hv : vc ≠ [])
    (hfl : ∀ c ∈ fc, c ∈ lowerChars) (hvl : ∀ c ∈ vc, c ∈ lowerChars)
    (hfk : goToUpper (String.mk fc) ∉ kwList)
    (hvk : goToUpper (String.mk vc) ∉ kwList) :
    ParseWhereText (String.mk (fc ++ '=' :: vc)) =
      some (.cond ⟨String.mk fc, "=", .str (String.mk vc)⟩) := by
  rw [ParseWhereText]
  rw [lexString_simple fc vc hf hv hfl hvl hfk hvk]
  rfl

/-- Unfolding equation of `ciSplitAux` at nonzero fuel. -/
theorem ciSplitAux_succ (fuel : Nat) (s op cur : List Char) :
    ciSplitAux (fuel + 1) s op cur =
      match s with
      | [] => [cur.reverse]
      | c :: rest =>
        if (op.map Char.toUpper).isPrefixOf ((c :: rest).map Char.toUpper) then
          cur.reverse :: ciSplitAux fuel (rest.drop (op.length - 1)) op []
        else ciSplitAux fuel rest op (c :: cur) := rfl

/-- Unfolding equation of `isPrefixOf` at two conses. -/
theorem isPrefixOf_cons_cons (a b : Char) (as bs : List Char) :
    (a :: as).isPrefixOf (b :: bs) = (a == b && as.isPrefixOf bs) := rfl

/-- A space-opened operator never splits a space-free text. -/
theorem ciSplitAux_nosplit :
    ∀ (fuel : Nat) (cs op' cur : List Char),
      (∀ c ∈ cs, (' ' == c.toUpper) = false) →
      ciSplitAux fuel cs (' ' :: op') cur = [cur.reverse ++ cs]
  | 0, cs, op', cur, _ => rfl
  | fuel + 1, [], op', cur, _ => by
    rw [ciSplitAux_succ]
    simp
  | fuel + 1, c :: rest, op', cur, h => by
    rw [ciSplitAux_succ]
    show (if ((' ' :: op').map Char.toUpper).isPrefixOf ((c :: rest).map Char.toUpper) then
        cur.reverse :: ciSplitAux fuel (rest.drop ((' ' :: op').length - 1)) (' ' :: op') []
      else ciSplitAux fuel rest (' ' :: op') (c :: cur)) = [cur.reverse ++ (c :: rest)]
    rw [List.map_cons, List.map_cons, isPrefixOf_cons_cons]
    have h1 : (' '.toUpper == c.toUpper) = false := h c (List.mem_cons_self c rest)
    rw [h1, Bool.false_and, if_neg Bool.false_ne_true]
    rw [ciSplitAux_nosplit fuel rest op' (c :: cur)
      (fun x hx => h x (List.mem_cons_of_mem c hx))]
    simp

/-- `splitByOperator` with `" OR "` leaves a space-free text whole. -/
theorem splitByOperator_OR (s : String)
    (h : ∀ c ∈ s.data, (' ' == c.toUpper) = false) :
    splitByOperator s " OR " = [s] := by
  rw [splitByOperator]
  have hop : (" OR " : String).data = ' ' :: ['O', 'R', ' '] := rfl
  rw [hop]
  rw [ciSplitAux_nosplit _ _ _ _ h]
  simp

/-- `splitByOperator` with `" AND "` leaves a space-free text whole. -/
theorem splitByOperator_AND (s : String)
    (h : ∀ c ∈ s.data, (' ' == c.toUpper) = false) :
    splitByOperator s " AND " = [s] := by
  rw [splitByOperator]
  have hop : (" AND " : String).data = ' ' :: ['A', 'N', 'D', ' '] := rfl
  rw [hop]
  rw [ciSplitAux_nosplit _ _ _ _ h]
  simp

/-- Trimming is the identity on space-free text. -/
theorem goTrimSpace_id (s : String) (h : ∀ c ∈ s.data, isGoSpace c = false) :
    goTrimSpace s = s := by
  rw [goTrimSpace]
  rw [dropWhile_none _ h]
  rw [dropWhile_none _ fun c hc => h c (List.mem_reverse.mp hc)]
  rw [List.reverse_reverse]

/-- `goIndexChars` misses a needle whose head occurs nowhere. -/
theorem goIndexChars_none (h0 : Char) (t : List Char) :
    ∀ cs : List Char, (∀ c ∈ cs, (h0 == c) = false) →
      goIndexChars cs (h0 :: t) = none
  | [], _ => rfl
  | c :: cs, h => by
    have heq : goIndexChars (c :: cs) (h0 :: t) =
        if (h0 :: t).isPrefixOf (c :: cs) then some 0
        else (goIndexChars cs (h0 :: t)).map (· + 1) := rfl
    rw [heq, isPrefixOf_cons_cons, h c (List.mem_cons_self c cs), Bool.false_and,
      if_neg Bool.false_ne_true,
      goIndexChars_none h0 t cs fun x hx => h x (List.mem_cons_of_mem c hx)]
    rfl

/-- `goIndexChars` finds a single `=` right after the `=`-free block. -/
theorem goIndexChars_boundary :
    ∀ fc vc : List Char, (∀ c ∈ fc, ('=' == c) = false) →
      goIndexChars (fc ++ '=' :: vc) ['='] = some fc.length
  | [], vc, _ => by
    have heq : goIndexChars ('=' :: vc) ['='] =
        if ['='].isPrefixOf ('=' :: vc) then some 0
        else (goIndexChars vc ['=']).map (· + 1) := rfl
    have hpre : ['='].isPrefixOf ('=' :: vc) = true := by
      rw [isPrefixOf_cons_cons]
      have hnil : ([] : List Char).isPrefixOf vc = true := by cases vc <;> rfl
      rw [hnil]
      simp
    show goIndexChars ([] ++ '=' :: vc) ['='] = some 0
    rw [List.nil_append, heq, hpre]
    simp
  | c :: fc, vc, h => by
    have heq : goIndexChars (c :: (fc ++ '=' :: vc)) ['='] =
        if ['='].isPrefixOf (c :: (fc ++ '=' :: vc)) then some 0
        else (goIndexChars (fc ++ '=' :: vc) ['=']).map (· + 1) := rfl
    show goIndexChars (c :: (fc ++ '=' :: vc)) ['='] = some (fc.length + 1)
    rw [heq, isPrefixOf_cons_cons, h c (List.mem_cons_self c fc), Bool.false_and,
      if_neg Bool.false_ne_true,
      goIndexChars_boundary fc vc fun x hx => h x (List.mem_cons_of_mem c hx)]
    rfl

/-- Take up to the block boundary. -/
theorem take_boundary : ∀ (fc : List Char) (x : Char) (vc : List Char),
    (fc ++ x :: vc).take fc.length = fc
  | [], _, _ => rfl
  | c :: fc, x, vc => by
    show (c :: (fc ++ x :: vc)).take (fc.length + 1) = c :: fc
    rw [List.take_succ_cons, take_boundary fc x vc]

/-- Drop past the block boundary. -/
theorem drop_boundary : ∀ (fc : List Char) (x : Char) (vc : List Char),
    (fc ++ x :: vc).drop (fc.length + 1) = vc
  | [], _, _ => rfl
  | c :: fc, x, vc => by
    show (c :: (fc ++ x :: vc)).drop (fc.length + 1 + 1) = vc
    rw [List.drop_succ_cons, drop_boundary fc x vc]

/-- Characters of a simple `f=v` text are letters or the `=` sign. -/
theorem memLowEq (fc vc : List Char)
    (hfl : ∀ c ∈ fc, c ∈ lowerChars) (hvl : ∀ c ∈ vc, c ∈ lowerChars) :
    ∀ c ∈ fc ++ '=' :: vc, c ∈ ('=' :: lowerChars) := by
  intro c hc
  rcases List.mem_append.mp hc with h1 | h2
  · exact List.mem_cons_of_mem _ (hfl c h1)
  · rcases List.mem_cons.mp h2 with rfl | h3
    · exact List.mem_cons_self _ _
    · exact List.mem_cons_of_mem _ (hvl c h3)

/-- The legacy operator scan on a simple `f=v` text finds only the `=`. -/
theorem ParseFilterExpression_simple (fc vc : List Char)
    (hf : fc ≠ []) (hv : vc ≠ [])
    (hfl : ∀ c ∈ fc, c ∈ lowerChars) (hvl : ∀ c ∈ vc, c ∈ lowerChars) :
    ParseFilterExpression (String.mk (fc ++ '=' :: vc)) =
      some ⟨String.mk fc, "=", String.mk vc⟩ := by
  have hchars := memLowEq fc vc hfl hvl
  have e1 : goIndex (String.mk (fc ++ '=' :: vc)) ">=" = none := by
    rw [goIndex]
    exact goIndexChars_none '>' ['='] _ fun c hc => (lowOrEq_spec c (hchars c hc)).2.2.1
  have e2 : goIndex (String.mk (fc ++ '=' :: vc)) "<=" = none := by
    rw [goIndex]
    exact goIndexChars_none '<' ['='] _ fun c hc => (lowOrEq_spec c (hchars c hc)).2.2.2.1
  have e3 : goIndex (String.mk (fc ++ '=' :: vc)) "!=" = none := by
    rw [goIndex]
    exact goIndexChars_none '!' ['='] _ fun c hc => (lowOrEq_spec c (hchars c hc)).2.2.2.2.1
  have e4 : goIndex (String.mk (fc ++ '=' :: vc)) "~=" = none := by
    rw [goIndex]
    exact goIndexChars_none '~' ['='] _ fun c hc => (lowOrEq_spec c (hchars c hc)).2.2.2.2.2.1
  have e5 : goIndex (String.mk (fc ++ '=' :: vc)) ">" = none := by
    rw [goIndex]
    exact goIndexChars_none '>' [] _ fun c hc => (lowOrEq_spec c (hchars c hc)).2.2.1
  have e6 : goIndex (String.mk (fc ++ '=' :: vc)) "<" = none := by
    rw [goIndex]
    exact goIndexChars_none '<' [] _ fun c hc => (lowOrEq_spec c (hchars c hc)).2.2.2.1
  have e7 : goIndex (String.mk (fc ++ '=' :: vc)) "=" = some fc.length := by
    rw [goIndex]
    exact goIndexChars_boundary fc vc fun c hc => (lowerChars_spec c (hfl c hc)).2.2.1
  have hpos : 0 < fc.length := List.length_pos.mpr hf
  have hlen1 : ("=" : String).length = 1 := by decide
  have htk : (fc ++ '=' :: vc).take fc.length = fc := take_boundary fc '=' vc
  have hdr : (fc ++ '=' :: vc).drop (fc.length + 1) = vc := drop_boundary fc '=' vc
  have htrf : goTrimSpace (String.mk fc) = String.mk fc :=
    goTrimSpace_id _ fun c hc => (lowerChars_spec c (hfl c hc)).2.2.2
  have htrv : goTrimSpace (String.mk vc) = String.mk vc :=
    goTrimSpace_id _ fun c hc => (lowerChars_spec c (hvl c hc)).2.2.2
  have hfne : String.mk fc ≠ "" := by
    intro hh
    apply hf
    simpa using congrArg String.data hh
  have hvne : String.mk vc ≠ "" := by
    intro hh
    apply hv
    simpa using congrArg String.data hh
  rw [ParseFilterExpression, pathOps]
  simp only [List.findSome?_cons, e1, e2, e3, e4, e5, e6, e7, hlen1]
  rw [if_pos hpos]
  simp only [htk, hdr, htrf, htrv]
  rw [if_pos ⟨hfne, hvne⟩]
  simp

/-- The legacy `ParseExpression` on a simple `f=v` text. -/
theorem ParseExpressionTop_simple (fc vc : List Char)
    (hf : fc ≠ []) (hv : vc ≠ [])
    (hfl : ∀ c ∈ fc, c ∈ lowerChars) (hvl : ∀ c ∈ vc, c ∈ lowerChars) :
    ParseExpressionTop (String.mk (fc ++ '=' :: vc)) =
      .cond ⟨String.mk fc, "=", .str (String.mk vc)⟩ := by
  have hchars := memLowEq fc vc hfl hvl
  have hsp : ∀ c ∈ (String.mk (fc ++ '=' :: vc)).data, (' ' == c.toUpper) = false :=
    fun c hc => (lowOrEq_spec c (hchars c hc)).1
  have hgs : ∀ c ∈ (String.mk (fc ++ '=' :: vc)).data, isGoSpace c = false :=
    fun c hc => (lowOrEq_spec c (hchars c hc)).2.1
  have hpar : goStartsWith (String.mk (fc ++ '=' :: vc)) "(" = false := by
    obtain ⟨a, fc', rfl⟩ : ∃ a fc', fc = a :: fc' := by
      cases fc with
      | nil => exact absurd rfl hf
      | cons a fc' => exact ⟨a, fc', rfl⟩
    rw [goStartsWith]
    have hd : ("(" : String).data = ['('] := rfl
    rw [hd]
    show (['('].isPrefixOf (a :: (fc' ++ '=' :: vc))) = false
    rw [isPrefixOf_cons_cons]
    have ha : ('(' == a) = false :=
      (lowOrEq_spec a (hchars a (by simp))).2.2.2.2.2.2
    rw [ha, Bool.false_and]
  rw [ParseExpressionTop]
  simp only [ParseExpression]
  rw [goTrimSpace_id _ hgs]
  rw [splitByOperator_OR _ hsp, splitByOperator_AND _ hsp]
  rw [if_neg (by simp), if_neg (by simp)]
  rw [if_neg (fun hand => by
    rw [hpar] at hand
    exact Bool.false_ne_true hand.1)]
  rw [ParseFilterExpression_simple fc vc hf hv hfl hvl]

/-- C9 counterexample: the two builders of the same condition text
disagree on a quoted literal — the legacy splitter keeps the quotes in
the compared value (so the condition is false on a matching record),
the grammar unquotes (so it is true). -/
theorem C9_counterexample_quoted_literal :
    (ParseExpressionTop "status = 'active'").Evaluate [("status", .str "active")] = false ∧
    (ParseWhereText "status = 'active'").map
      (fun g => g.Evaluate [("status", .str "active")]) = some true := by decide

/-- C9 (amended): on simple unquoted conditions `f=v` — `f`, `v`
nonempty lowercase words that are not keywords — the legacy
string-splitting `ParseExpression` and the grammar-driven WHERE parser
build the same Expression tree, hence evaluate identically on every
record. -/
theorem C9_simple_condition_agree (fc vc : List Char)
    (hf : fc ≠ []) (hv : vc ≠ [])
    (hfl : ∀ c ∈ fc, c ∈ lowerChars) (hvl : ∀ c ∈ vc, c ∈ lowerChars)
    (hfk : goToUpper (String.mk fc) ∉ kwList)
    (hvk : goToUpper (String.mk vc) ∉ kwList) :
    ParseWhereText (String.mk (fc ++ '=' :: vc)) =
      some (ParseExpressionTop (String.mk (fc ++ '=' :: vc))) ∧
    ∀ r : Rec,
      (ParseWhereText (String.mk (fc ++ '=' :: vc))).map (fun g => g.Evaluate r) =
        some ((ParseExpressionTop (String.mk (fc ++ '=' :: vc))).Evaluate r) := by
  have h1 := ParseWhereText_simple fc vc hf hv hfl hvl hfk hvk
  have h2 := ParseExpressionTop_simple fc vc hf hv hfl hvl
  rw [h1, h2]
  exact ⟨rfl, fun r => rfl⟩

/-- C9 witness: the two builders agree on `a=b`. -/
theorem C9_simple_condition_agree_witness :
    ParseWhereText (String.mk (['a'] ++ '=' :: ['b'])) =
      some (ParseExpressionTop (String.mk (['a'] ++ '=' :: ['b']))) :=
  (C9_simple_condition_agree ['a'] ['b'] (by decide) (by decide) (by decide) (by decide)
    (by decide) (by decide)).1

/-- Unfolding of `charsLe` at two conses. -/
theorem charsLe_cons (a b : Char) (l₁ l₂ : List Char) :
    charsLe (a :: l₁) (b :: l₂) =
      if a < b then true else if b < a then false else charsLe l₁ l₂ := rfl

/-- `charsLe` on a nonempty left and empty right. -/
theorem charsLe_cons_nil (a : Char) (l : List Char) : charsLe (a :: l) [] = false := rfl

/-- `charsLe` is total. -/
theorem charsLe_total : ∀ a b : List Char, charsLe a b = true ∨ charsLe b a = true
  | [], _ => .inl rfl
  | _ :: _, [] => .inr rfl
  | a :: l₁, b :: l₂ => by
    rw [charsLe_cons, charsLe_cons]
    rcases lt_trichotomy a b with h | h | h
    · left
      rw [if_pos h]
    · subst h
      simp only [if_neg (lt_irrefl a)]
      exact charsLe_total l₁ l₂
    · right
      rw [if_pos h]

/-- `charsLe` is antisymmetric. -/
theorem charsLe_antisymm : ∀ a b : List Char,
    charsLe a b = true → charsLe b a = true → a = b
  | [], [], _, _ => rfl
  | [], _ :: _, _, h2 => by rw [charsLe_cons_nil] at h2; exact Bool.noConfusion h2
  | _ :: _, [], h1, _ => by rw [charsLe_cons_nil] at h1; exact Bool.noConfusion h1
  | a :: l₁, b :: l₂, h1, h2 => by
    rw [charsLe_cons] at h1 h2
    rcases lt_trichotomy a b with h | h | h
    · rw [if_neg (lt_asymm h), if_pos h] at h2
      exact Bool.noConfusion h2
    · subst h
      rw [if_neg (lt_irrefl a), if_neg (lt_irrefl a)] at h1 h2
      rw [charsLe_antisymm l₁ l₂ h1 h2]
    · rw [if_neg (lt_asymm h), if_pos h] at h1
      exact Bool.noConfusion h1

/-- `charsLe` is transitive. -/
theorem charsLe_trans : ∀ a b c : List Char,
    charsLe a b = true → charsLe b c = true → charsLe a c = true
  | [], _, _, _, _ => rfl
  | _ :: _, [], _, h1, _ => by rw [charsLe_cons_nil] at h1; exact Bool.noConfusion h1
  | _ :: _, _ :: _, [], _, h2 => by rw [charsLe_cons_nil] at h2; exact Bool.noConfusion h2
  | a :: l₁, b :: l₂, c :: l₃, h1, h2 => by
    rw [charsLe_cons] at h1 h2
    rw [charsLe_cons]
    rcases lt_trichotomy a b with hab | hab | hab
    · rcases lt_trichotomy b c with hbc | hbc | hbc
      · rw [if_pos (lt_trans hab hbc)]
      · subst hbc
        rw [if_pos hab]
      · rw [if_neg (lt_asymm hbc), if_pos hbc] at h2
        exact Bool.noConfusion h2
    · subst hab
      rcases lt_trichotomy a c with hac | hac | hac
      · rw [if_pos hac]
      · subst hac
        rw [if_neg (lt_irrefl a), if_neg (lt_irrefl a)] at h1 h2 ⊢
        exact charsLe_trans l₁ l₂ l₃ h1 h2
      · rw [if_neg (lt_asymm hac), if_pos hac] at h2
        exact Bool.noConfusion h2
    · rw [if_neg (lt_asymm hab), if_pos hab] at h1
      exact Bool.noConfusion h1

/-- `strLe` is total. -/
theorem strLe_total (a b : String) : strLe a b = true ∨ strLe b a = true :=
  charsLe_total a.data b.data

/-- `strLe` is antisymmetric. -/
theorem strLe_antisymm (a b : String) (h1 : strLe a b = true) (h2 : strLe b a = true) :
    a = b := by
  have h := charsLe_antisymm a.data b.data h1 h2
  cases a
  cases b
  exact congrArg String.mk h

/-- `strLe` is transitive. -/
theorem strLe_trans (a b c : String) (h1 : strLe a b = true) (h2 : strLe b c = true) :
    strLe a c = true :=
  charsLe_trans a.data b.data c.data h1 h2

/-- Sorted insertion permutes to a cons. -/
theorem insertSortedStr_perm (k : String) :
    ∀ l : List String, (insertSortedStr k l).Perm (k :: l)
  | [] => List.Perm.refl _
  | x :: xs => by
    rw [insertSortedStr]
    by_cases h : strLe k x = true
    · rw [if_pos h]
    · rw [if_neg h]
      exact ((insertSortedStr_perm k xs).cons x).trans (List.Perm.swap k x xs)

/-- `sortStrings` permutes its input. -/
theorem sortStrings_perm : ∀ l : List String, (sortStrings l).Perm l
  | [] => List.Perm.refl _
  | x :: xs => by
    show (insertSortedStr x (sortStrings xs)).Perm (x :: xs)
    exact (insertSortedStr_perm x (sortStrings xs)).trans ((sortStrings_perm xs).cons x)

/-- Sorted insertion preserves sortedness. -/
theorem insertSortedStr_sorted (k : String) :
    ∀ l : List String, List.Pairwise (fun a b => strLe a b = true) l →
      List.Pairwise (fun a b => strLe a b = true) (insertSortedStr k l)
  | [], _ => by simp [insertSortedStr]
  | x :: xs, hs => by
    rw [insertSortedStr]
    by_cases h : strLe k x = true
    · rw [if_pos h]
      refine List.Pairwise.cons ?_ hs
      intro e he
      rcases List.mem_cons.mp he with rfl | he2
      · exact h
      · exact strLe_trans k x e h (List.rel_of_pairwise_cons hs he2)
    · rw [if_neg h]
      have hxk : strLe x k = true := (strLe_total k x).resolve_left h
      refine List.Pairwise.cons ?_ (insertSortedStr_sorted k xs (List.Pairwise.of_cons hs))
      intro e he
      have he2 : e ∈ k :: xs := (insertSortedStr_perm k xs).mem_iff.mp he
      rcases List.mem_cons.mp he2 with rfl | he3
      · exact hxk
      · exact List.rel_of_pairwise_cons hs he3

/-- `sortStrings` sorts. -/
theorem sortStrings_sorted :
    ∀ l : List String, List.Pairwise (fun a b => strLe a b = true) (sortStrings l)
  | [] => List.Pairwise.nil
  | x :: xs => by
    show List.Pairwise (fun a b => strLe a b = true) (insertSortedStr x (sortStrings xs))
    exact insertSortedStr_sorted x _ (sortStrings_sorted xs)

/-- Permuted inputs sort identically. -/
theorem sortStrings_perm_eq (l₁ l₂ : List String) (h : l₁.Perm l₂) :
    sortStrings l₁ = sortStrings l₂ := by
  have hp : (sortStrings l₁).Perm (sortStrings l₂) :=
    (sortStrings_perm l₁).trans (h.trans (sortStrings_perm l₂).symm)
  haveI : IsAntisymm String (fun a b => strLe a b = true) :=
    ⟨fun a b h1 h2 => strLe_antisymm a b h1 h2⟩
  exact List.eq_of_perm_of_sorted hp (sortStrings_sorted l₁) (sortStrings_sorted l₂)

/-- Unfolding of `List.lookup` at a cons. -/
theorem lookup_cons_eq {β : Type} (k a : String) (b : β) (es : List (String × β)) :
    List.lookup k ((a, b) :: es) = if k == a then some b else List.lookup k es := by
  cases h : k == a <;> simp [List.lookup, h]

/-- A key is absent exactly when `lookup` misses. -/
theorem lookupNoneIff {β : Type} (k : String) :
    ∀ l : List (String × β), List.lookup k l = none ↔ k ∉ l.map Prod.fst
  | [] => by simp
  | (a, b) :: es => by
    by_cases h : k = a
    · subst h
      simp [lookup_cons_eq]
    · simp [lookup_cons_eq, h, lookupNoneIff k es]

/-- `updateGroups` keeps the key list. -/
theorem updateGroups_keys (fields : List Field) :
    ∀ (groups : List (String × List (Option AggState))) (k : String) (row : Val),
      (updateGroups fields groups k row).map Prod.fst = groups.map Prod.fst
  | [], _, _ => rfl
  | (k', st) :: rest, k, row => by
    rw [updateGroups]
    by_cases h : k' = k
    · rw [if_pos h]
      simp
    · rw [if_neg h]
      simp [updateGroups_keys fields rest k row]

/-- `lookup` after `updateGroups`. -/
theorem lookup_updateGroups (fields : List Field) :
    ∀ (groups : List (String × List (Option AggState))) (k0 : String) (row : Val) (k : String),
      List.lookup k (updateGroups fields groups k0 row) =
        if k = k0 then (List.lookup k groups).map fun st => groupUpdate fields st row
        else List.lookup k groups
  | [], k0, row, k => by
    rw [updateGroups]
    by_cases h : k = k0 <;> simp [h]
  | (k', st) :: rest, k0, row, k => by
    rw [updateGroups]
    by_cases h1 : k' = k0
    · subst h1
      rw [if_pos rfl]
      by_cases h2 : k = k'
      · subst h2
        simp [lookup_cons_eq]
      · simp [lookup_cons_eq, h2]
    · rw [if_neg h1]
      by_cases h2 : k = k'
      · subst h2
        simp [lookup_cons_eq, h1]
      · simp [lookup_cons_eq, h2, lookup_updateGroups fields rest k0 row k]

/-- `lookup` after appending a fresh single entry. -/
theorem lookup_append_single {β : Type} (k k0 : String) (st0 : β) :
    ∀ groups : List (String × β),
      List.lookup k (groups ++ [(k0, st0)]) =
        (List.lookup k groups).or (if k = k0 then some st0 else none)
  | [] => by
    by_cases h : k = k0 <;> simp [lookup_cons_eq, h]
  | (a, b) :: es => by
    by_cases h : k = a
    · subst h
      simp [lookup_cons_eq]
    · simp [lookup_cons_eq, h, lookup_append_single k k0 st0 es]

/-- The group of key `k` after draining `rows` from `groups`: the old
accumulator set if the key was present, a fresh one if some row maps to
it, nothing otherwise — in every case folded over exactly the rows of
that key, in arrival order. -/
theorem aggFold_lookup (fields : List Field) (gby : String) (k : String) :
    ∀ (rows : List Val) (groups : List (String × List (Option AggState))),
      List.lookup k (rows.foldl (aggStep fields gby) groups) =
        ((List.lookup k groups).or
          (if k ∈ rows.map (keyOf gby) then some (newGroupState fields) else none)).map
          fun st => (rows.filter fun r => keyOf gby r == k).foldl (groupUpdate fields) st
  | [], groups => by
    cases h : List.lookup k groups <;> simp [h]
  | r :: rest, groups => by
    rw [List.foldl_cons, aggFold_lookup fields gby k rest (aggStep fields gby groups r)]
    by_cases hk : keyOf gby r = k
    · have hkb : (keyOf gby r == k) = true := by simp [hk]
      have hmemc : k ∈ (r :: rest).map (keyOf gby) := by simp [hk]
      cases hg : List.lookup k groups with
      | some st =>
        have h1 : aggStep fields gby groups r = updateGroups fields groups (keyOf gby r) r := by
          simp [aggStep, hk, hg]
        rw [h1, lookup_updateGroups, if_pos hk.symm, hg]
        rw [if_pos hmemc]
        simp [List.filter_cons, hkb]
      | none =>
        have h1 : aggStep fields gby groups r =
            groups ++ [(keyOf gby r, groupUpdate fields (newGroupState fields) r)] := by
          simp [aggStep, hk, hg]
        rw [h1, lookup_append_single, hg, Option.none_or, Option.none_or,
          if_pos hk.symm, if_pos hmemc]
        simp [List.filter_cons, hkb]
    · have hkb : (keyOf gby r == k) = false := by simp [hk]
      have hkne : ¬(k = keyOf gby r) := fun hh => hk hh.symm
      have hmem : (k ∈ (r :: rest).map (keyOf gby)) ↔ (k ∈ rest.map (keyOf gby)) := by
        simp only [List.map_cons, List.mem_cons]
        constructor
        · rintro (hh | hh)
          · exact absurd hh.symm hk
          · exact hh
        · exact Or.inr
      cases hg0 : List.lookup (keyOf gby r) groups with
      | some st0 =>
        have h1 : aggStep fields gby groups r = updateGroups fields groups (keyOf gby r) r := by
          simp [aggStep, hg0]
        rw [h1, lookup_updateGroups, if_neg hkne]
        rw [if_congr hmem rfl rfl]
        simp [List.filter_cons, hkb]
      | none =>
        have h1 : aggStep fields gby groups r =
            groups ++ [(keyOf gby r, groupUpdate fields (newGroupState fields) r)] := by
          simp [aggStep, hg0]
        rw [h1, lookup_append_single, if_neg hkne, Option.or_none]
        rw [if_congr hmem rfl rfl]
        simp [List.filter_cons, hkb]

/-- Key membership after the drain equals key occurrence in the rows. -/
theorem aggFold_mem_keys (fields : List Field) (gby : String) (rows : List Val) (k : String) :
    k ∈ (rows.foldl (aggStep fields gby) []).map Prod.fst ↔ k ∈ rows.map (keyOf gby) := by
  have h := aggFold_lookup fields gby k rows []
  rw [List.lookup_nil, Option.none_or] at h
  by_cases hm : k ∈ rows.map (keyOf gby)
  · rw [if_pos hm] at h
    have hne : List.lookup k (rows.foldl (aggStep fields gby) []) ≠ none := by
      rw [h]
      simp
    simp only [hm, iff_true]
    by_contra hnot
    exact hne ((lookupNoneIff k _).mpr hnot)
  · rw [if_neg hm] at h
    have hn : List.lookup k (rows.foldl (aggStep fields gby) []) = none := by
      rw [h]
      rfl
    simp only [hm, iff_false]
    exact (lookupNoneIff k _).mp hn

/-- The drained key list has no duplicates. -/
theorem aggFold_keys_nodup (fields : List Field) (gby : String) :
    ∀ (rows : List Val) (groups : List (String × List (Option AggState))),
      (groups.map Prod.fst).Nodup →
      ((rows.foldl (aggStep fields gby) groups).map Prod.fst).Nodup
  | [], _, h => h
  | r :: rest, groups, h => by
    rw [List.foldl_cons]
    apply aggFold_keys_nodup fields gby rest
    cases hg : List.lookup (keyOf gby r) groups with
    | some st0 =>
      have h1 : aggStep fields gby groups r = updateGroups fields groups (keyOf gby r) r := by
        simp [aggStep, hg]
      rw [h1, updateGroups_keys]
      exact h
    | none =>
      have h1 : aggStep fields gby groups r =
          groups ++ [(keyOf gby r, groupUpdate fields (newGroupState fields) r)] := by
        simp [aggStep, hg]
      rw [h1]
      have hnot : keyOf gby r ∉ groups.map Prod.fst := (lookupNoneIff _ _).mp hg
      simp [List.nodup_append, h, hnot]

/-- `Add` keeps the accumulator kind. -/
theorem AggState_add_kind (a : AggState) (v : Val) : (a.add v).kind = a.kind := by
  rw [AggState.add]
  cases ha : a.kind <;> simp

/-- `COUNT` contributions commute. -/
theorem countAdd_comm (c : Nat) (v1 v2 : Val) :
    countAdd (countAdd c v1) v2 = countAdd (countAdd c v2) v1 := by
  cases v1 <;> cases v2 <;> simp [countAdd] <;> omega

/-- `Add` commutes on `COUNT` accumulators (integer counting, exact in
Go as in the model). -/
theorem AggState_add_comm (a : AggState) (v1 v2 : Val) (h1 : a.kind = .count) :
    (a.add v1).add v2 = (a.add v2).add v1 := by
  obtain ⟨kind, mval, sum, count⟩ := a
  subst h1
  simp only [AggState.add]
  simp [countAdd_comm count v1 v2]

/-- Unfolding of `groupUpdate` at two conses. -/
theorem groupUpdate_cons (f : Field) (fs : List Field) (a0 : Option AggState)
    (rest : List (Option AggState)) (row : Val) :
    groupUpdate (f :: fs) (a0 :: rest) row =
      (match a0 with
       | some b0 =>
         (match rowGet row f.Path with
          | some v => some (b0.add v)
          | none => some b0)
       | none => none) :: groupUpdate fs rest row := rfl

/-- `groupUpdate` preserves the kind restriction. -/
theorem groupUpdate_kindOk :
    ∀ (fields : List Field) (st : List (Option AggState)) (row : Val),
      (∀ a ∈ st, kindOk a) → ∀ a ∈ groupUpdate fields st row, kindOk a
  | [], st, row, _ => by
    intro a ha
    rw [show groupUpdate [] st row = [] from rfl] at ha
    exact absurd ha (List.not_mem_nil a)
  | f :: fs, [], row, _ => by
    intro a ha
    rw [show groupUpdate (f :: fs) [] row = [] from rfl] at ha
    exact absurd ha (List.not_mem_nil a)
  | f :: fs, a0 :: rest, row, h => by
    intro a ha
    rw [groupUpdate_cons] at ha
    rcases List.mem_cons.mp ha with ha1 | hmem
    · subst ha1
      cases a0 with
      | none =>
        intro b0 hb0
        exact Option.noConfusion hb0
      | some b0 =>
        have hk := h (some b0) (List.mem_cons_self _ _) b0 rfl
        cases hw : rowGet row f.Path with
        | some v =>
          intro c0 hc0
          have h2 : some (b0.add v) = some c0 := hc0
          cases h2
          rw [AggState_add_kind]
          exact hk
        | none =>
          intro c0 hc0
          have h2 : some b0 = some c0 := hc0
          cases h2
          exact hk
    · exact groupUpdate_kindOk fs rest row (fun x hx => h x (List.mem_cons_of_mem _ hx)) a hmem

/-- `groupUpdate` on two rows commutes under the kind restriction. -/
theorem groupUpdate_comm :
    ∀ (fields : List Field) (st : List (Option AggState)) (r1 r2 : Val),
      (∀ a ∈ st, kindOk a) →
      groupUpdate fields (groupUpdate fields st r1) r2 =
        groupUpdate fields (groupUpdate fields st r2) r1
  | [], _, _, _, _ => rfl
  | _ :: _, [], _, _, _ => rfl
  | f :: fs, a0 :: rest, r1, r2, h => by
    have htail := groupUpdate_comm fs rest r1 r2 fun x hx => h x (List.mem_cons_of_mem _ hx)
    rw [groupUpdate_cons, groupUpdate_cons, groupUpdate_cons, groupUpdate_cons]
    rw [htail]
    congr 1
    cases a0 with
    | none => rfl
    | some b0 =>
      have hk := h (some b0) (List.mem_cons_self _ _) b0 rfl
      cases hw1 : rowGet r1 f.Path with
      | none =>
        cases hw2 : rowGet r2 f.Path with
        | none => rfl
        | some v2 => rfl
      | some v1 =>
        cases hw2 : rowGet r2 f.Path with
        | none => rfl
        | some v2 =>
          exact congrArg some (AggState_add_comm b0 v1 v2 hk)

/-- Folding `groupUpdate` over permuted rows gives the same accumulator
set, under the kind restriction. -/
theorem foldl_groupUpdate_perm (fields : List Field) :
    ∀ {l₁ l₂ : List Val}, l₁.Perm l₂ →
      ∀ st : List (Option AggState), (∀ a ∈ st, kindOk a) →
        l₁.foldl (groupUpdate fields) st = l₂.foldl (groupUpdate fields) st := by
  intro l₁ l₂ hperm
  induction hperm with
  | nil =>
    intro st _
    rfl
  | cons x _ ih =>
    intro st hok
    rw [List.foldl_cons, List.foldl_cons]
    exact ih _ (groupUpdate_kindOk fields st x hok)
  | swap x y l =>
    intro st hok
    rw [List.foldl_cons, List.foldl_cons, List.foldl_cons, List.foldl_cons]
    rw [groupUpdate_comm fields st y x hok]
  | trans _ _ ih₁ ih₂ =>
    intro st hok
    rw [ih₁ st hok, ih₂ st hok]

/-- The fresh accumulator set satisfies the kind restriction when every
field resolves to the `COUNT` aggregator (which includes non-aggregate
fields, whose accumulator slot is `none`). -/
theorem newGroupState_kindOk (fields : List Field)
    (hkind : ∀ f ∈ fields, createAggregator f.Aggregate = .count) :
    ∀ a ∈ newGroupState fields, kindOk a := by
  intro a ha
  rw [newGroupState] at ha
  rcases List.mem_map.mp ha with ⟨f, hf, rfl⟩
  intro b0 hb0
  by_cases hag : f.Aggregate ≠ ""
  · rw [if_pos hag] at hb0
    have h2 : ({ kind := createAggregator f.Aggregate } : AggState) = b0 := Option.some.inj hb0
    cases h2
    exact hkind f hf
  · rw [if_neg hag] at hb0
    exact Option.noConfusion hb0

/-- C4 counterexample: the `MAX` accumulator is order-dependent (the
numeric/string comparison fallback is not transitive), so permuting the
input rows changes the emitted aggregate value. -/
theorem C4_counterexample_max_order :
    ([Val.obj [("x", .num 10)], .obj [("x", .num 9)], .obj [("x", .str "5x")]].Perm
      [.obj [("x", .num 9)], .obj [("x", .str "5x")], .obj [("x", .num 10)]])
    ∧ aggRun "" [⟨"x", "m", "MAX"⟩]
        [.obj [("x", .num 10)], .obj [("x", .num 9)], .obj [("x", .str "5x")]] ≠
      aggRun "" [⟨"x", "m", "MAX"⟩]
        [.obj [("x", .num 9)], .obj [("x", .str "5x")], .obj [("x", .num 10)]] := by
  decide

/-- C4 (amended): aggregation output is independent of the input row
order only when every field's aggregate resolves to `COUNT`, the one
accumulator whose Go arithmetic (an `int` counter) is exact.
`MAX`/`MIN` are order-dependent through the non-transitive mixed
numeric/string comparison (see the counterexample), and `SUM`/`AVG`
accumulate in rounding `float64` arithmetic, which is not associative
(in Go, `SUM` over `1e16, 1, 1` differs across arrival orders), so no
order-independence is claimed for them — the model's exact rational sum
deliberately idealizes that rounding away.  Independent of the
aggregate kinds: the emitted group-key list is the duplicate-free
lexicographic sort of the row keys, hence order-independent and sorted;
and a failed group-by extraction maps the row to the literal key
`"null"`. -/
theorem C4_aggregate_order_determinism (gby : String) (fields : List Field) :
    (∀ rows₁ rows₂ : List Val, rows₁.Perm rows₂ →
      (∀ f ∈ fields, createAggregator f.Aggregate = .count) →
      aggRun gby fields rows₁ = aggRun gby fields rows₂)
    ∧ (∀ rows₁ rows₂ : List Val, rows₁.Perm rows₂ →
        sortStrings ((rows₁.foldl (aggStep fields gby) []).map Prod.fst) =
          sortStrings ((rows₂.foldl (aggStep fields gby) []).map Prod.fst))
    ∧ (∀ rows : List Val,
        List.Pairwise (fun a b => strLe a b = true)
          (sortStrings ((rows.foldl (aggStep fields gby) []).map Prod.fst)))
    ∧ (∀ row : Val, gby ≠ "" → rowGet row gby = none → keyOf gby row = "null") := by
  have hkeys : ∀ {rows₁ rows₂ : List Val}, rows₁.Perm rows₂ →
      sortStrings ((rows₁.foldl (aggStep fields gby) []).map Prod.fst) =
        sortStrings ((rows₂.foldl (aggStep fields gby) []).map Prod.fst) := by
    intro rows₁ rows₂ hperm
    apply sortStrings_perm_eq
    apply (List.perm_ext_iff_of_nodup
      (aggFold_keys_nodup fields gby rows₁ [] (by simp))
      (aggFold_keys_nodup fields gby rows₂ [] (by simp))).mpr
    intro k
    rw [aggFold_mem_keys, aggFold_mem_keys]
    exact (hperm.map (keyOf gby)).mem_iff
  refine ⟨?_, fun rows₁ rows₂ h => hkeys h, fun rows => sortStrings_sorted _, ?_⟩
  · intro rows₁ rows₂ hperm hkind
    by_cases hnil : rows₁ = []
    · subst hnil
      have h2 : rows₂ = [] := hperm.symm.eq_nil
      subst h2
      rfl
    · have hnil₂ : rows₂ ≠ [] := fun hh => hnil (List.Perm.eq_nil (hh ▸ hperm))
      have hemp₁ : rows₁.isEmpty = false := by
        cases rows₁ with
        | nil => exact absurd rfl hnil
        | cons a l => rfl
      have hemp₂ : rows₂.isEmpty = false := by
        cases rows₂ with
        | nil => exact absurd rfl hnil₂
        | cons a l => rfl
      simp only [aggRun]
      rw [if_neg fun hand => by rw [hemp₁] at hand; exact Bool.false_ne_true hand.1]
      rw [if_neg fun hand => by rw [hemp₂] at hand; exact Bool.false_ne_true hand.1]
      rw [hkeys hperm]
      apply List.map_congr_left
      intro k hkmem
      have hl₁ := aggFold_lookup fields gby k rows₁ []
      have hl₂ := aggFold_lookup fields gby k rows₂ []
      rw [List.lookup_nil, Option.none_or] at hl₁ hl₂
      have hmemiff : k ∈ rows₁.map (keyOf gby) ↔ k ∈ rows₂.map (keyOf gby) :=
        (hperm.map (keyOf gby)).mem_iff
      have hfilter : (rows₁.filter fun r => keyOf gby r == k).Perm
          (rows₂.filter fun r => keyOf gby r == k) := hperm.filter _
      have hfold := foldl_groupUpdate_perm fields hfilter (newGroupState fields)
        (newGroupState_kindOk fields hkind)
      have hlook : List.lookup k (rows₁.foldl (aggStep fields gby) []) =
          List.lookup k (rows₂.foldl (aggStep fields gby) []) := by
        rw [hl₁, hl₂]
        by_cases hm : k ∈ rows₁.map (keyOf gby)
        · rw [if_pos hm, if_pos (hmemiff.mp hm)]
          simp [hfold]
        · rw [if_neg hm, if_neg fun hh => hm (hmemiff.mpr hh)]
          rfl
      rw [hlook]
  · intro row hne hnone
    rw [keyOf, if_neg hne, hnone]

/-- C4 witness: a `COUNT` group-by on two rows agrees across a swap of
the input order. -/
theorem C4_aggregate_order_determinism_witness :
    aggRun "g" [⟨"x", "c", "COUNT"⟩]
        [.obj [("g", .str "a"), ("x", .num 1)], .obj [("g", .str "b"), ("x", .num 2)]] =
      aggRun "g" [⟨"x", "c", "COUNT"⟩]
        [.obj [("g", .str "b"), ("x", .num 2)], .obj [("g", .str "a"), ("x", .num 1)]] :=
  (C4_aggregate_order_determinism "g" [⟨"x", "c", "COUNT"⟩]).1
    _ _ (List.Perm.swap _ _ _) (by decide)

end JSL
